import Mathlib

/-!
Verification of the TA-assignment evolutionary optimizer
(`evo copy.py` / `assignta copy.py`).

The data model is embedded shallowly:

* an *evaluation* is the tuple `((name1, score1), (name2, score2), …)`
  built by `Evo.add_solution`, modelled as a `List (String × Int)`;
* a *solution* is a `List (List Nat)` — a T×S matrix of 0/1 entries in
  row-major order, mirroring the numpy array;
* the static tables are parameters: `daytime : List String`,
  `min_ta : List Nat`, `max_assigned : List Nat`, and a preference
  matrix `prefs : List (List Char)` with entries 'P', 'W', 'U'.
-/

namespace Evo

/-- An evaluation tuple `((obj1, score1), (obj2, score2), …)` as produced by
`Evo.add_solution` and consumed by `Evo.dominates`. -/
abbrev Eval := List (String × Int)

/-- numpy `min` over a one-dimensional array, `none` on the empty array
(numpy raises there; `Evo.dominates` only ever applies it to five-element
arrays). -/
def npMin : List Int → Option Int
  | [] => none
  | x :: xs => some (xs.foldl min x)

/-- numpy `max` over a one-dimensional array. -/
def npMax : List Int → Option Int
  | [] => none
  | x :: xs => some (xs.foldl max x)

/-- `score_diffs = qscores - pscores`, the elementwise difference computed
by `Evo.dominates` (evo copy.py line 58); first argument `pscores`, second
`qscores`. -/
def score_diffs (pscores qscores : List Int) : List Int :=
  List.zipWith (fun qi pi => qi - pi) qscores pscores

/-- `Evo.dominates` (evo copy.py lines 51–59): strip the objective names
(`[score for name, score in p]`), subtract elementwise, and test
`min(score_diffs) >= 0 and max(score_diffs) > 0`. -/
def dominates (p q : Eval) : Bool :=
  match npMin (score_diffs (p.map Prod.snd) (q.map Prod.snd)),
        npMax (score_diffs (p.map Prod.snd) (q.map Prod.snd)) with
  | some mn, some mx => decide (0 ≤ mn) && decide (0 < mx)
  | _, _ => false

/-- `Evo.reduce_nds` (evo copy.py lines 61–62) on the key set, modelled as
the (ordered) list of dictionary keys: `S - {q for q in S if dominates p q}`.
Set subtraction keeps the surviving keys in their original order. -/
def reduce_nds (S : List Eval) (p : Eval) : List Eval :=
  S.filter (fun q => !(dominates p q))

/-- The key set computed by `Evo.remove_dominated` (evo copy.py line 65):
`reduce(self.reduce_nds, self.pop.keys(), self.pop.keys())` — a left fold of
`reduce_nds` over all original keys, starting from the full key set. -/
def nds_keys (keys : List Eval) : List Eval :=
  keys.foldl reduce_nds keys

/-- Python dictionary lookup `m[k]` on the association-list model of
`self.pop`: the value at the (unique) matching key. -/
def dictLookup {σ : Type _} (m : List (Eval × σ)) (k : Eval) : Option σ :=
  (m.find? (fun kv => decide (kv.1 = k))).map Prod.snd

/-- Python dictionary assignment `m[k] = v` on the association-list model of
`self.pop`: an existing key keeps its position and gets the new value; a
fresh key is appended at the end. -/
def dictInsert {σ : Type _} (m : List (Eval × σ)) (k : Eval) (v : σ) :
    List (Eval × σ) :=
  if m.any (fun kv => decide (kv.1 = k)) then
    m.map (fun kv => if kv.1 = k then (k, v) else kv)
  else m ++ [(k, v)]

/-- The evaluation tuple built by `Evo.add_solution` (evo copy.py line 32):
`tuple([(name, f(sol)) for name, f in self.fitness.items()])`. -/
def eval_tuple {σ : Type _} (fitness : List (String × (σ → Int)))
    (sol : σ) : Eval :=
  fitness.map fun nf => (nf.1, nf.2 sol)

/-- `Evo.add_solution` (evo copy.py lines 30–33): score the solution under
every registered objective and store `eval → sol` in the population dict. -/
def add_solution {σ : Type _} (fitness : List (String × (σ → Int)))
    (pop : List (Eval × σ)) (sol : σ) : List (Eval × σ) :=
  dictInsert pop (eval_tuple fitness sol) sol

end Evo

namespace Evo

theorem foldl_reduce_nds (pivots : List Eval) :
    ∀ init : List Eval,
      pivots.foldl reduce_nds init =
        init.filter (fun q => !(pivots.any (fun p => dominates p q))) := by
  induction pivots with
  | nil =>
    intro init
    simp [List.filter_eq_self]
  | cons p ps ih =>
    intro init
    simp only [List.foldl_cons, ih, reduce_nds, List.filter_filter]
    apply List.filter_congr
    intro q _
    simp only [List.any_cons, Bool.not_or, Bool.and_comm]

theorem score_diffs_self (l : List Int) :
    score_diffs l l = List.replicate l.length 0 := by
  induction l with
  | nil => rfl
  | cons a t ih =>
    simp only [score_diffs, List.zipWith_cons_cons, List.length_cons,
      List.replicate_succ, sub_self] at *
    rw [ih]

theorem foldl_max_replicate_zero (n : Nat) :
    (List.replicate n (0 : Int)).foldl max 0 = 0 := by
  induction n with
  | zero => rfl
  | succ m ih => simpa [List.replicate_succ] using ih

theorem dominates_irrefl (p : Eval) : dominates p p = false := by
  unfold dominates
  generalize (p.map Prod.snd) = l
  cases l with
  | nil => rfl
  | cons a t =>
    have h : score_diffs (a :: t) (a :: t) =
        0 :: List.replicate t.length 0 := by
      simpa [List.replicate_succ] using score_diffs_self (a :: t)
    simp [h, npMin, npMax, foldl_max_replicate_zero]

end Evo

section C1

open Evo

/-- C1: `dominates p q` on five-score evaluations holds iff every score of
`p` is ≤ the corresponding score of `q` and some score of `p` is strictly
less; in particular (1,1,1,1,1) dominates (1,1,1,1,2), and (1,0,0,0,0)
and (0,1,0,0,0) are mutually non-dominated. -/
theorem dominates_iff_pareto :
    (∀ (n1 n2 n3 n4 n5 m1 m2 m3 m4 m5 : String) (p1 p2 p3 p4 p5 q1 q2 q3 q4 q5 : Int),
      dominates [(n1, p1), (n2, p2), (n3, p3), (n4, p4), (n5, p5)]
          [(m1, q1), (m2, q2), (m3, q3), (m4, q4), (m5, q5)] = true ↔
        ((p1 ≤ q1 ∧ p2 ≤ q2 ∧ p3 ≤ q3 ∧ p4 ≤ q4 ∧ p5 ≤ q5) ∧
         (p1 < q1 ∨ p2 < q2 ∨ p3 < q3 ∨ p4 < q4 ∨ p5 < q5))) ∧
    dominates [("overallocation", 1), ("conflicts", 1), ("undersupport", 1),
        ("unwilling", 1), ("unpreferred", 1)]
      [("overallocation", 1), ("conflicts", 1), ("undersupport", 1),
        ("unwilling", 1), ("unpreferred", 2)] = true ∧
    dominates [("overallocation", 1), ("conflicts", 0), ("undersupport", 0),
        ("unwilling", 0), ("unpreferred", 0)]
      [("overallocation", 0), ("conflicts", 1), ("undersupport", 0),
        ("unwilling", 0), ("unpreferred", 0)] = false ∧
    dominates [("overallocation", 0), ("conflicts", 1), ("undersupport", 0),
        ("unwilling", 0), ("unpreferred", 0)]
      [("overallocation", 1), ("conflicts", 0), ("undersupport", 0),
        ("unwilling", 0), ("unpreferred", 0)] = false := by
  refine ⟨?_, by decide, by decide, by decide⟩
  intro n1 n2 n3 n4 n5 m1 m2 m3 m4 m5 p1 p2 p3 p4 p5 q1 q2 q3 q4 q5
  simp only [dominates, score_diffs, npMin, npMax, List.map_cons, List.map_nil,
    List.zipWith, List.foldl, Bool.and_eq_true, decide_eq_true_eq]
  constructor
  · rintro ⟨hmn, hmx⟩
    simp only [le_min_iff] at hmn
    simp only [lt_max_iff] at hmx
    omega
  · rintro ⟨hle, hlt⟩
    constructor
    · simp only [le_min_iff]
      omega
    · simp only [lt_max_iff]
      omega

end C1

section C2

open Evo

/-- C2: for every key set, `remove_dominated`'s fold over pivots computes
exactly the pairwise-scan non-dominated frontier, and a key survives iff it
is an original key dominated by no other original key. -/
theorem remove_dominated_frontier (keys : List Eval) :
    nds_keys keys =
      keys.filter (fun q => !(keys.any (fun p => dominates p q))) ∧
    ∀ q, q ∈ nds_keys keys ↔
      q ∈ keys ∧ ∀ p ∈ keys, p ≠ q → dominates p q = false := by
  refine ⟨foldl_reduce_nds keys keys, ?_⟩
  intro q
  rw [nds_keys, foldl_reduce_nds keys keys, List.mem_filter]
  simp only [Bool.not_eq_true', List.any_eq_false]
  constructor
  · rintro ⟨hq, hall⟩
    exact ⟨hq, fun p hp _ => by simpa using hall p hp⟩
  · rintro ⟨hq, hall⟩
    refine ⟨hq, fun p hp => ?_⟩
    by_cases hpq : p = q
    · subst hpq
      simpa using dominates_irrefl p
    · simpa using hall p hp hpq

end C2

namespace Evo

theorem dictInsert_of_mem {σ : Type _} (m : List (Eval × σ)) (k : Eval) (v : σ)
    (hk : k ∈ m.map Prod.fst) :
    dictInsert m k v = m.map (fun kv => if kv.1 = k then (k, v) else kv) := by
  unfold dictInsert
  rw [if_pos]
  rw [List.any_eq_true]
  obtain ⟨kv, hkv, heq⟩ := List.mem_map.mp hk
  exact ⟨kv, hkv, by simp [heq]⟩

theorem dictInsert_keys_of_mem {σ : Type _} (m : List (Eval × σ)) (k : Eval)
    (v : σ) (hk : k ∈ m.map Prod.fst) :
    (dictInsert m k v).map Prod.fst = m.map Prod.fst := by
  rw [dictInsert_of_mem m k v hk, List.map_map]
  apply List.map_congr_left
  intro kv _
  by_cases h : kv.1 = k
  · simp [h]
  · simp [h]

theorem dictLookup_dictInsert_of_mem {σ : Type _} (m : List (Eval × σ))
    (k : Eval) (v : σ) (hk : k ∈ m.map Prod.fst) :
    dictLookup (dictInsert m k v) k = some v := by
  rw [dictInsert_of_mem m k v hk]
  unfold dictLookup
  induction m with
  | nil => simp at hk
  | cons kv t ih =>
    by_cases h : kv.1 = k
    · simp [List.find?, h]
    · have hk' : k ∈ t.map Prod.fst := by
        rw [List.map_cons, List.mem_cons] at hk
        rcases hk with h1 | h1
        · exact absurd h1.symm h
        · exact h1
      simpa [List.find?, h] using ih hk'

theorem dictInsert_keys_nodup {σ : Type _} (m : List (Eval × σ)) (k : Eval)
    (v : σ) (h : (m.map Prod.fst).Nodup) :
    ((dictInsert m k v).map Prod.fst).Nodup := by
  by_cases hk : k ∈ m.map Prod.fst
  · rw [dictInsert_keys_of_mem m k v hk]
    exact h
  · unfold dictInsert
    rw [if_neg]
    · rw [List.map_append]
      refine List.Nodup.append h (by simp) ?_
      intro a ha hb
      simp only [List.map_cons, List.map_nil, List.mem_singleton] at hb
      exact hk (hb ▸ ha)
    · intro hany
      obtain ⟨kv, hkv, hdec⟩ := List.any_eq_true.mp hany
      exact hk (List.mem_map.mpr ⟨kv, hkv, by simpa using hdec⟩)

end Evo

section C4

open Evo

/-- C4: inserting a solution whose evaluation tuple equals an existing key
replaces that entry with the new solution (last writer wins) without
changing the population size or its key list; and every insertion preserves
distinctness of the stored evaluation tuples. -/
theorem add_solution_last_writer {σ : Type _}
    (fitness : List (String × (σ → Int))) (pop : List (Eval × σ)) (sol : σ) :
    (eval_tuple fitness sol ∈ pop.map Prod.fst →
      (add_solution fitness pop sol).length = pop.length ∧
      (add_solution fitness pop sol).map Prod.fst = pop.map Prod.fst ∧
      dictLookup (add_solution fitness pop sol) (eval_tuple fitness sol) =
        some sol) ∧
    ((pop.map Prod.fst).Nodup →
      ((add_solution fitness pop sol).map Prod.fst).Nodup) := by
  constructor
  · intro hk
    refine ⟨?_, dictInsert_keys_of_mem pop _ sol hk,
      dictLookup_dictInsert_of_mem pop _ sol hk⟩
    rw [add_solution, dictInsert_of_mem pop _ sol hk, List.length_map]
  · intro hnd
    exact dictInsert_keys_nodup pop _ sol hnd

/-- Witness for C4 at a concrete population: one objective, a stored entry
with evaluation `[("overallocation", 5)]` holding solution 99, and a new
solution 5 that scores the same. -/
theorem add_solution_last_writer_witness :
    (add_solution [("overallocation", fun s : Nat => (s : Int))]
        [([("overallocation", (5 : Int))], 99)] 5).length = 1 ∧
    dictLookup (add_solution [("overallocation", fun s : Nat => (s : Int))]
        [([("overallocation", (5 : Int))], 99)] 5)
      (eval_tuple [("overallocation", fun s : Nat => (s : Int))] 5) =
      some 5 ∧
    ((add_solution [("overallocation", fun s : Nat => (s : Int))]
        [([("overallocation", (5 : Int))], 99)] 5).map Prod.fst).Nodup := by
  obtain ⟨h1, h2⟩ := add_solution_last_writer
    [("overallocation", fun s : Nat => (s : Int))]
    [([("overallocation", (5 : Int))], (99 : Nat))] (5 : Nat)
  obtain ⟨hlen, _, hlook⟩ := h1 (by simp [eval_tuple])
  exact ⟨hlen, hlook, h2 (by simp)⟩

end C4

namespace TA

/-- A candidate solution: a T×S numpy 0/1 matrix, row-major. -/
abbrev Mat := List (List Nat)

/-- `X` has shape T×S. -/
def Shaped (T S : Nat) (X : Mat) : Prop :=
  X.length = T ∧ ∀ row ∈ X, row.length = S

/-- Every entry of `X` is 0 or 1. -/
def Binary (X : Mat) : Prop :=
  ∀ row ∈ X, ∀ v ∈ row, v = 0 ∨ v = 1

/-- Cell read `X[t, s]` (0 outside the matrix; all uses are in range). -/
def getCell (X : Mat) (t s : Nat) : Nat := (X.getD t []).getD s 0

/-- Cell write `X[t, s] = v` (no-op outside the matrix; all uses are in
range). -/
def setCell (X : Mat) (t s : Nat) (v : Nat) : Mat :=
  X.set t ((X.getD t []).set s v)

/-- Column indices holding value 1 in one row, in increasing order, starting
the enumeration at `s0` — the row-level piece of `np.where(solution == 1)`. -/
def rowOnesFrom (s0 : Nat) : List Nat → List Nat
  | [] => []
  | v :: vs => (if v = 1 then [s0] else []) ++ rowOnesFrom (s0 + 1) vs

/-- `np.where(solution == 1)` zipped into (row, column) pairs: all cells
holding 1, in row-major order, rows numbered from `t0`. -/
def assignedIndicesFrom (t0 : Nat) : Mat → List (Nat × Nat)
  | [] => []
  | row :: rest =>
    (rowOnesFrom 0 row).map (fun s => (t0, s)) ++
      assignedIndicesFrom (t0 + 1) rest

/-- `np.where(solution == 1)` as (row, column) pairs in row-major order. -/
def assignedIndices (X : Mat) : List (Nat × Nat) := assignedIndicesFrom 0 X

/-- `pandas.duplicated(keep='first')` with an explicit accumulator of the
elements already seen: each element is marked `true` iff an equal element
occurred earlier. -/
def dupMarksAux {α : Type _} [DecidableEq α] : List α → List α → List Bool
  | _, [] => []
  | seen, x :: xs => decide (x ∈ seen) :: dupMarksAux (x :: seen) xs

/-- `pandas.duplicated(keep='first')`. -/
def duplicatedMarks {α : Type _} [DecidableEq α] (l : List α) : List Bool :=
  dupMarksAux [] l

/-- Column sum `solution.sum(axis=0)[s]`. -/
def colSum (X : Mat) (s : Nat) : Nat := (X.map (fun row => row.getD s 0)).sum

/-- `minimize_overallocation` (assignta copy.py lines 21–27):
`np.sum(np.maximum(solution.sum(axis=1) - max_assigned, 0))`.  numpy
integers are signed, so the subtraction is in `Int` and clamped at 0. -/
def minimize_overallocation (max_assigned : List Nat) (X : Mat) : Int :=
  (List.zipWith (fun (r c : Nat) => max ((r : Int) - (c : Int)) 0)
    (X.map (fun row => row.sum)) max_assigned).sum

/-- `minimize_conflicts` (assignta copy.py lines 29–40): list the assigned
cells row-major, pair each TA id with the daytime of its assigned section,
mark pandas duplicates of the (TA_ID, Assigned_Time) pairs, group the marks
by TA id and take `any` per group, and sum the per-group booleans. -/
def minimize_conflicts (daytime : List String) (X : Mat) : Int :=
  let idx := assignedIndices X
  let ta_ids := idx.map Prod.fst
  let pairs := idx.map (fun p => (p.1, daytime.getD p.2 ""))
  let marks := duplicatedMarks pairs
  (ta_ids.dedup.countP
    (fun t => (ta_ids.zip marks).any (fun tm => decide (tm.1 = t) && tm.2)) : Int)

/-- `minimize_undersupport` (assignta copy.py lines 42–48):
`np.maximum(min_ta - solution.sum(axis=0), 0).sum()`; the two vectors are
aligned (both of length S) in every call the program makes. -/
def minimize_undersupport (min_ta : List Nat) (X : Mat) : Int :=
  (List.zipWith (fun (m c : Nat) => max ((m : Int) - (c : Int)) 0)
    min_ta ((List.range min_ta.length).map (colSum X))).sum

/-- `minimize_unwilling` (assignta copy.py lines 50–56):
`np.sum(solution * (prefs == 'U'))`. -/
def minimize_unwilling (prefs : List (List Char)) (X : Mat) : Int :=
  ((X.zip prefs).map (fun rp =>
    ((rp.1.zip rp.2).map
      (fun vc => (vc.1 : Int) * (if vc.2 = 'U' then 1 else 0))).sum)).sum

/-- `minimize_unpreferred` (assignta copy.py lines 58–64):
`np.sum(solution * ((prefs == 'W') & (prefs != 'P')))`. -/
def minimize_unpreferred (prefs : List (List Char)) (X : Mat) : Int :=
  ((X.zip prefs).map (fun rp =>
    ((rp.1.zip rp.2).map
      (fun vc => (vc.1 : Int) * (if vc.2 = 'W' ∧ vc.2 ≠ 'P' then 1 else 0))).sum)).sum

/-- The daytimes of the sections one TA row is assigned to (the row's slice
of `assigned_times`), in section order. -/
def assignedTimes (daytime : List String) (row : List Nat) : List String :=
  (rowOnesFrom 0 row).map (fun s => daytime.getD s "")

theorem assignedIndicesFrom_fst_ge :
    ∀ (X : Mat) (t0 : Nat) (p : Nat × Nat),
      p ∈ assignedIndicesFrom t0 X → t0 ≤ p.1 := by
  intro X
  induction X with
  | nil => intro t0 p hp; simp [assignedIndicesFrom] at hp
  | cons row rest ih =>
    intro t0 p hp
    rw [assignedIndicesFrom, List.mem_append] at hp
    rcases hp with hp | hp
    · obtain ⟨s, _, rfl⟩ := List.mem_map.mp hp
      exact le_refl t0
    · exact le_trans (Nat.le_succ t0) (ih (t0 + 1) p hp)

theorem length_dupMarksAux {α : Type _} [DecidableEq α] :
    ∀ (l seen : List α), (dupMarksAux seen l).length = l.length := by
  intro l
  induction l with
  | nil => intro seen; rfl
  | cons x xs ih => intro seen; simp [dupMarksAux, ih (x :: seen)]

/-- The groupby-`any` test of `minimize_conflicts`, characterised without
positions: some (TA, time) pair with TA id `t` is marked as a pandas
duplicate iff the pairs with id `t` repeat, or one of them was already
seen. -/
theorem anyMarked_iff {α β : Type _} [DecidableEq α] [DecidableEq β] (t : α) :
    ∀ (l seen : List (α × β)),
      (((l.map Prod.fst).zip (dupMarksAux seen l)).any
          (fun tm => decide (tm.1 = t) && tm.2) = true)
      ↔ (¬ (l.filter (fun x => decide (x.1 = t))).Nodup
          ∨ ∃ x ∈ l, x.1 = t ∧ x ∈ seen) := by
  intro l
  induction l with
  | nil => intro seen; simp [dupMarksAux]
  | cons x xs ih =>
    intro seen
    rw [dupMarksAux, List.map_cons, List.zip_cons_cons, List.any_cons]
    simp only [Bool.or_eq_true, Bool.and_eq_true, decide_eq_true_eq]
    rw [ih (x :: seen)]
    by_cases hx : x.1 = t
    · rw [List.filter_cons, if_pos (by simp [hx]), List.nodup_cons]
      constructor
      · rintro (⟨-, hseen⟩ | hnd | ⟨y, hy, hyt, hmem⟩)
        · exact Or.inr ⟨x, List.mem_cons_self x xs, hx, hseen⟩
        · exact Or.inl (fun hc => hnd hc.2)
        · rcases List.mem_cons.mp hmem with rfl | hyseen
          · exact Or.inl (fun hc =>
              hc.1 (List.mem_filter.mpr ⟨hy, by simpa using hx⟩))
          · exact Or.inr ⟨y, List.mem_cons_of_mem x hy, hyt, hyseen⟩
      · rintro (hnd | ⟨y, hy, hyt, hseen⟩)
        · by_cases hmem : x ∈ xs.filter (fun z => decide (z.1 = t))
          · exact Or.inr (Or.inr
              ⟨x, (List.mem_filter.mp hmem).1, hx, List.mem_cons_self x seen⟩)
          · exact Or.inr (Or.inl (fun hnd2 => hnd ⟨hmem, hnd2⟩))
        · rcases List.mem_cons.mp hy with rfl | hy2
          · exact Or.inl ⟨hx, hseen⟩
          · exact Or.inr (Or.inr ⟨y, hy2, hyt, List.mem_cons_of_mem x hseen⟩)
    · rw [List.filter_cons, if_neg (by simp [hx])]
      constructor
      · rintro (⟨hxt, -⟩ | hnd | ⟨y, hy, hyt, hmem⟩)
        · exact absurd hxt hx
        · exact Or.inl hnd
        · rcases List.mem_cons.mp hmem with rfl | hyseen
          · exact absurd hyt hx
          · exact Or.inr ⟨y, List.mem_cons_of_mem x hy, hyt, hyseen⟩
      · rintro (hnd | ⟨y, hy, hyt, hseen⟩)
        · exact Or.inr (Or.inl hnd)
        · rcases List.mem_cons.mp hy with rfl | hy2
          · exact absurd hyt hx
          · exact Or.inr (Or.inr ⟨y, hy2, hyt, List.mem_cons_of_mem x hseen⟩)

theorem not_nodup_iff_dedup_length_lt {α : Type _} [DecidableEq α]
    (l : List α) : l.dedup.length < l.length ↔ ¬ l.Nodup := by
  constructor
  · intro hlt hnd
    rw [List.dedup_eq_self.mpr hnd] at hlt
    exact lt_irrefl _ hlt
  · intro hnd
    have hle := (List.dedup_sublist l).length_le
    rcases lt_or_eq_of_le hle with hlt | heq
    · exact hlt
    · exfalso
      have := (List.dedup_sublist l).eq_of_length heq
      exact hnd (this ▸ List.nodup_dedup l)

theorem countP_dedup_replicate_append {α : Type _} [DecidableEq α] (a : α)
    (L : List α) (p : α → Bool) :
    ∀ k : Nat, a ∉ L →
      (List.replicate k a ++ L).dedup.countP p =
        (if k = 0 then 0 else if p a then 1 else 0) + L.dedup.countP p := by
  intro k
  induction k with
  | zero => intro _; simp
  | succ n ih =>
    intro ha
    rw [List.replicate_succ, List.cons_append]
    by_cases hn : n = 0
    · subst hn
      rw [List.replicate_zero, List.nil_append,
        List.dedup_cons_of_not_mem ha, List.countP_cons]
      simp [Nat.add_comm]
    · have hmem : a ∈ List.replicate n a ++ L :=
        List.mem_append.mpr (Or.inl (List.mem_replicate.mpr ⟨hn, rfl⟩))
      rw [List.dedup_cons_of_mem hmem, ih ha]
      simp [hn]

theorem conflicts_count_aux (daytime : List String) :
    ∀ (X : Mat) (t0 : Nat),
      (((assignedIndicesFrom t0 X).map
          (fun p => (p.1, daytime.getD p.2 ""))).map Prod.fst).dedup.countP
        (fun t => !decide ((((assignedIndicesFrom t0 X).map
            (fun p => (p.1, daytime.getD p.2 ""))).filter
              (fun x => decide (x.1 = t))).Nodup))
      = (X.map (fun row =>
          if (assignedTimes daytime row).Nodup then 0 else 1)).sum := by
  intro X
  induction X with
  | nil => intro t0; simp [assignedIndicesFrom]
  | cons row rest ih =>
    intro t0
    have hidx : assignedIndicesFrom t0 (row :: rest) =
        (rowOnesFrom 0 row).map (fun s => (t0, s)) ++
          assignedIndicesFrom (t0 + 1) rest := rfl
    rw [hidx, List.map_append]
    have hP1 : ((rowOnesFrom 0 row).map (fun s => (t0, s))).map
        (fun p : Nat × Nat => (p.1, daytime.getD p.2 "")) =
        (assignedTimes daytime row).map (fun b => (t0, b)) := by
      rw [assignedTimes, List.map_map, List.map_map]
      rfl
    rw [hP1]
    have hAfst : ((assignedTimes daytime row).map (fun b => (t0, b))).map
        Prod.fst = List.replicate (assignedTimes daytime row).length t0 := by
      rw [List.map_map]
      exact List.map_const' _ t0
    have hBge : ∀ q ∈ (assignedIndicesFrom (t0 + 1) rest).map
        (fun p : Nat × Nat => (p.1, daytime.getD p.2 "")), t0 + 1 ≤ q.1 := by
      intro q hq
      obtain ⟨p, hp, rfl⟩ := List.mem_map.mp hq
      exact assignedIndicesFrom_fst_ge rest (t0 + 1) p hp
    have hnotin : t0 ∉ ((assignedIndicesFrom (t0 + 1) rest).map
        (fun p : Nat × Nat => (p.1, daytime.getD p.2 ""))).map Prod.fst := by
      intro hmem
      obtain ⟨q, hq, hq2⟩ := List.mem_map.mp hmem
      have := hBge q hq
      omega
    rw [List.map_append, hAfst,
      countP_dedup_replicate_append t0 _ _ _ hnotin]
    have hfil0 : (((assignedTimes daytime row).map (fun b => (t0, b))) ++
        (assignedIndicesFrom (t0 + 1) rest).map
          (fun p : Nat × Nat => (p.1, daytime.getD p.2 ""))).filter
            (fun x => decide (x.1 = t0)) =
        (assignedTimes daytime row).map (fun b => (t0, b)) := by
      rw [List.filter_append]
      have h1 : ((assignedTimes daytime row).map (fun b => (t0, b))).filter
          (fun x => decide (x.1 = t0)) =
          (assignedTimes daytime row).map (fun b => (t0, b)) := by
        apply List.filter_eq_self.mpr
        intro a ha
        obtain ⟨b, _, rfl⟩ := List.mem_map.mp ha
        simp
      have h2 : ((assignedIndicesFrom (t0 + 1) rest).map
          (fun p : Nat × Nat => (p.1, daytime.getD p.2 ""))).filter
            (fun x => decide (x.1 = t0)) = [] := by
        apply List.filter_eq_nil_iff.mpr
        intro q hq
        have := hBge q hq
        simp only [decide_eq_true_eq]
        omega
      rw [h1, h2, List.append_nil]
    have hcongr : (((assignedIndicesFrom (t0 + 1) rest).map
        (fun p : Nat × Nat => (p.1, daytime.getD p.2 ""))).map
          Prod.fst).dedup.countP
        (fun t => !decide (((((assignedTimes daytime row).map
            (fun b => (t0, b))) ++ (assignedIndicesFrom (t0 + 1) rest).map
              (fun p : Nat × Nat => (p.1, daytime.getD p.2 ""))).filter
                (fun x => decide (x.1 = t))).Nodup)) =
        (((assignedIndicesFrom (t0 + 1) rest).map
          (fun p => (p.1, daytime.getD p.2 ""))).map Prod.fst).dedup.countP
        (fun t => !decide ((((assignedIndicesFrom (t0 + 1) rest).map
            (fun p => (p.1, daytime.getD p.2 ""))).filter
              (fun x => decide (x.1 = t))).Nodup)) := by
      apply List.countP_congr
      intro t ht
      have ht2 := List.mem_dedup.mp ht
      obtain ⟨q, hq, rfl⟩ := List.mem_map.mp ht2
      have hget0 : t0 + 1 ≤ q.1 := hBge q hq
      have hA : ((assignedTimes daytime row).map (fun b => (t0, b))).filter
          (fun x => decide (x.1 = q.1)) = [] := by
        apply List.filter_eq_nil_iff.mpr
        intro a ha
        obtain ⟨b, _, rfl⟩ := List.mem_map.mp ha
        simp only [decide_eq_true_eq]
        omega
      rw [List.filter_append, hA, List.nil_append]
    rw [hcongr, ih (t0 + 1), List.map_cons, List.sum_cons]
    congr 1
    rw [hfil0]
    have hnd : ((assignedTimes daytime row).map (fun b => (t0, b))).Nodup ↔
        (assignedTimes daytime row).Nodup :=
      List.nodup_map_iff (fun a b h => by simpa using congrArg Prod.snd h)
    by_cases hlen : (assignedTimes daytime row).length = 0
    · have : assignedTimes daytime row = [] := List.length_eq_zero.mp hlen
      simp [this]
    · rw [if_neg hlen]
      by_cases hN : (assignedTimes daytime row).Nodup
      · simp [hN, hnd.mpr hN]
      · simp [hN, (not_congr hnd).mpr hN]

/-- Cast bridge for indicator sums. -/
theorem cast_indicator_sum {α : Type _} (l : List α) (p : α → Prop)
    [DecidablePred p] :
    ((l.map (fun a => if p a then 0 else 1)).sum : Nat) =
      ((l.map (fun a => if p a then (0 : Int) else 1)).sum).toNat := by
  induction l with
  | nil => rfl
  | cons x xs ih =>
    have hnn : 0 ≤ (xs.map (fun a => if p a then (0 : Int) else 1)).sum := by
      apply List.sum_nonneg
      intro v hv
      obtain ⟨a, _, rfl⟩ := List.mem_map.mp hv
      by_cases hpa : p a <;> simp [hpa]
    by_cases hpx : p x <;> simp [hpx, ih] <;> omega

theorem minimize_conflicts_eq (daytime : List String) (X : Mat) :
    minimize_conflicts daytime X =
      (X.map (fun row =>
        if (assignedTimes daytime row).Nodup then (0 : Int) else 1)).sum := by
  rw [minimize_conflicts]
  have hta : (assignedIndices X).map Prod.fst =
      ((assignedIndices X).map
        (fun p => (p.1, daytime.getD p.2 ""))).map Prod.fst := by
    rw [List.map_map]
    rfl
  rw [duplicatedMarks, hta]
  have hpred : ∀ t : Nat,
      ((((assignedIndices X).map
          (fun p => (p.1, daytime.getD p.2 ""))).map Prod.fst).zip
        (dupMarksAux [] ((assignedIndices X).map
          (fun p => (p.1, daytime.getD p.2 ""))))).any
        (fun tm => decide (tm.1 = t) && tm.2) =
      !decide ((((assignedIndices X).map
          (fun p => (p.1, daytime.getD p.2 ""))).filter
            (fun x => decide (x.1 = t))).Nodup) := by
    intro t
    have h := anyMarked_iff t
      ((assignedIndices X).map (fun p => (p.1, daytime.getD p.2 ""))) []
    simp only [List.not_mem_nil, and_false, exists_prop, false_and,
      exists_false, or_false] at h
    by_cases hP : (((assignedIndices X).map
        (fun p => (p.1, daytime.getD p.2 ""))).filter
          (fun x => decide (x.1 = t))).Nodup
    · simp only [hP, not_true, iff_false, Bool.not_eq_true] at h
      rw [h, decide_eq_true hP]
      rfl
    · simp only [hP, not_false_iff, iff_true] at h
      rw [h, decide_eq_false hP]
      rfl
  have hfun : (fun t : Nat => ((((assignedIndices X).map
      (fun p => (p.1, daytime.getD p.2 ""))).map Prod.fst).zip
        (dupMarksAux [] ((assignedIndices X).map
          (fun p => (p.1, daytime.getD p.2 ""))))).any
        (fun tm => decide (tm.1 = t) && tm.2)) =
      (fun t : Nat => !decide ((((assignedIndices X).map
          (fun p => (p.1, daytime.getD p.2 ""))).filter
            (fun x => decide (x.1 = t))).Nodup)) := funext hpred
  rw [hfun]
  unfold assignedIndices
  rw [conflicts_count_aux daytime X 0, cast_indicator_sum]
  rw [Int.toNat_of_nonneg]
  apply List.sum_nonneg
  intro v hv
  obtain ⟨row, _, rfl⟩ := List.mem_map.mp hv
  by_cases hN : (assignedTimes daytime row).Nodup <;> simp [hN]

end TA

section C3

open TA

/-- C3: the conflicts objective contributes exactly 1 per TA whose multiset
of assigned daytimes contains a duplicate and 0 otherwise; a TA with three
sections at one slot counts as one conflict, and a TA with two separate
double-booked slots also counts as one. -/
theorem minimize_conflicts_per_ta :
    (∀ (daytime : List String) (X : Mat),
      minimize_conflicts daytime X =
        (X.map (fun row =>
          if (assignedTimes daytime row).dedup.length <
              (assignedTimes daytime row).length then (1 : Int) else 0)).sum) ∧
    minimize_conflicts ["a", "a", "a"] [[1, 1, 1]] = 1 ∧
    minimize_conflicts ["a", "a", "b", "b"] [[1, 1, 1, 1]] = 1 := by
  refine ⟨?_, by decide, by decide⟩
  intro daytime X
  rw [minimize_conflicts_eq]
  refine congrArg List.sum (List.map_congr_left ?_)
  intro row _
  by_cases hN : (assignedTimes daytime row).Nodup
  · have hlt : ¬ (assignedTimes daytime row).dedup.length <
        (assignedTimes daytime row).length := by
      rw [not_nodup_iff_dedup_length_lt]
      exact not_not_intro hN
    simp [hN, hlt]
  · have hlt : (assignedTimes daytime row).dedup.length <
        (assignedTimes daytime row).length :=
      (not_nodup_iff_dedup_length_lt _).mpr hN
    simp [hN, hlt]

end C3

namespace TA

theorem int_sum_le_length_mul (l : List Int) (c : Int)
    (h : ∀ x ∈ l, x ≤ c) : l.sum ≤ (l.length : Int) * c := by
  induction l with
  | nil => simp
  | cons x xs ih =>
    rw [List.sum_cons, List.length_cons]
    have h1 := h x (List.mem_cons_self x xs)
    have h2 := ih (fun y hy => h y (List.mem_cons_of_mem x hy))
    have hring : ((xs.length + 1 : Nat) : Int) * c =
        (xs.length : Int) * c + c := by
      push_cast
      ring
    rw [hring]
    linarith

theorem zipWith_sum_nonneg {α β : Type _} (f : α → β → Int)
    (hf : ∀ x y, 0 ≤ f x y) :
    ∀ (a : List α) (b : List β), 0 ≤ (List.zipWith f a b).sum := by
  intro a
  induction a with
  | nil => intro b; simp
  | cons x xs ih =>
    intro b
    cases b with
    | nil => simp
    | cons y ys =>
      rw [List.zipWith_cons_cons, List.sum_cons]
      have := ih ys
      have := hf x y
      linarith

theorem zipWith_sum_le {α β : Type _} (f : α → β → Int) (c : Int)
    (hc : 0 ≤ c) :
    ∀ (a : List α) (b : List β), (∀ x ∈ a, ∀ y, f x y ≤ c) →
      (List.zipWith f a b).sum ≤ (a.length : Int) * c := by
  intro a
  induction a with
  | nil => intro b _; simp
  | cons x xs ih =>
    intro b h
    cases b with
    | nil =>
      simp only [List.zipWith_nil_right, List.sum_nil]
      exact mul_nonneg (by positivity) hc
    | cons y ys =>
      rw [List.zipWith_cons_cons, List.sum_cons, List.length_cons]
      have h1 := h x (List.mem_cons_self x xs) y
      have h2 := ih ys (fun z hz => h z (List.mem_cons_of_mem x hz))
      have hring : ((xs.length + 1 : Nat) : Int) * c =
          (xs.length : Int) * c + c := by
        push_cast
        ring
      rw [hring]
      linarith

theorem binary_row_sum_le (row : List Nat)
    (h : ∀ v ∈ row, v = 0 ∨ v = 1) : row.sum ≤ row.length := by
  induction row with
  | nil => simp
  | cons v vs ih =>
    rw [List.sum_cons, List.length_cons]
    have h1 := h v (List.mem_cons_self v vs)
    have h2 := ih (fun w hw => h w (List.mem_cons_of_mem v hw))
    omega

theorem minimize_overallocation_nonneg (caps : List Nat) (X : Mat) :
    0 ≤ minimize_overallocation caps X :=
  zipWith_sum_nonneg _ (fun _ _ => le_max_right _ _) _ _

theorem minimize_overallocation_le (T S : Nat) (caps : List Nat) (X : Mat)
    (hS : Shaped T S X) (hB : Binary X) :
    minimize_overallocation caps X ≤ ((T * S : Nat) : Int) := by
  unfold minimize_overallocation
  have h := zipWith_sum_le (fun (r c : Nat) => max ((r : Int) - (c : Int)) 0)
    (S : Int) (by positivity) (X.map (fun row => row.sum)) caps ?_
  · rw [List.length_map, hS.1] at h
    calc (List.zipWith _ (X.map (fun row => row.sum)) caps).sum
        ≤ (T : Int) * (S : Int) := h
      _ = ((T * S : Nat) : Int) := by push_cast; ring
  · intro r hr cap
    obtain ⟨row, hrow, rfl⟩ := List.mem_map.mp hr
    have h1 : row.sum ≤ row.length := binary_row_sum_le row (hB row hrow)
    have h2 : row.length = S := hS.2 row hrow
    apply max_le
    · omega
    · positivity

theorem minimize_conflicts_nonneg (daytime : List String) (X : Mat) :
    0 ≤ minimize_conflicts daytime X := by
  rw [minimize_conflicts_eq]
  apply List.sum_nonneg
  intro v hv
  obtain ⟨row, _, rfl⟩ := List.mem_map.mp hv
  by_cases hN : (assignedTimes daytime row).Nodup <;> simp [hN]

theorem minimize_conflicts_le (T S : Nat) (daytime : List String) (X : Mat)
    (hS : Shaped T S X) :
    minimize_conflicts daytime X ≤ ((T * S : Nat) : Int) := by
  rw [minimize_conflicts_eq]
  have h := int_sum_le_length_mul
    (X.map (fun row =>
      if (assignedTimes daytime row).Nodup then (0 : Int) else 1))
    (S : Int) ?_
  · rw [List.length_map, hS.1] at h
    calc (X.map (fun row =>
          if (assignedTimes daytime row).Nodup then (0 : Int) else 1)).sum
        ≤ (T : Int) * (S : Int) := h
      _ = ((T * S : Nat) : Int) := by push_cast; ring
  · intro v hv
    obtain ⟨row, hrow, rfl⟩ := List.mem_map.mp hv
    by_cases hN : (assignedTimes daytime row).Nodup
    · simp only [hN, if_true]
      positivity
    · simp only [hN, if_false]
      have hne : row ≠ [] := by
        intro h0
        apply hN
        rw [h0]
        simp [assignedTimes, rowOnesFrom]
      have hpos : 0 < row.length := List.length_pos.mpr hne
      have hSr := hS.2 row hrow
      omega

theorem minimize_undersupport_nonneg (min_ta : List Nat) (X : Mat) :
    0 ≤ minimize_undersupport min_ta X :=
  zipWith_sum_nonneg _ (fun _ _ => le_max_right _ _) _ _

theorem minimize_undersupport_le (T S : Nat) (min_ta : List Nat) (X : Mat)
    (hlen : min_ta.length = S) (hmT : ∀ m ∈ min_ta, m ≤ T) :
    minimize_undersupport min_ta X ≤ ((T * S : Nat) : Int) := by
  unfold minimize_undersupport
  have h := zipWith_sum_le (fun (m c : Nat) => max ((m : Int) - (c : Int)) 0)
    (T : Int) (by positivity) min_ta
    ((List.range min_ta.length).map (colSum X)) ?_
  · calc (List.zipWith _ min_ta
          ((List.range min_ta.length).map (colSum X))).sum
        ≤ (min_ta.length : Int) * (T : Int) := h
      _ = ((T * S : Nat) : Int) := by rw [hlen]; push_cast; ring
  · intro m hm c
    have := hmT m hm
    apply max_le
    · omega
    · positivity

theorem weighted_sum_nonneg (X : Mat) (prefs : List (List Char))
    (g : Char → Int) (hg : ∀ c, g c = 0 ∨ g c = 1) :
    0 ≤ ((X.zip prefs).map (fun rp =>
      ((rp.1.zip rp.2).map (fun vc => (vc.1 : Int) * g vc.2)).sum)).sum := by
  apply List.sum_nonneg
  intro v hv
  obtain ⟨rp, _, rfl⟩ := List.mem_map.mp hv
  apply List.sum_nonneg
  intro w hw
  obtain ⟨vc, _, rfl⟩ := List.mem_map.mp hw
  rcases hg vc.2 with h0 | h1
  · rw [h0]
    simp
  · rw [h1]
    simp

theorem weighted_sum_le (T S : Nat) (X : Mat) (prefs : List (List Char))
    (g : Char → Int) (hg : ∀ c, g c = 0 ∨ g c = 1)
    (hS : Shaped T S X) (hB : Binary X) :
    ((X.zip prefs).map (fun rp =>
      ((rp.1.zip rp.2).map (fun vc => (vc.1 : Int) * g vc.2)).sum)).sum ≤
      ((T * S : Nat) : Int) := by
  have houter : ∀ w ∈ (X.zip prefs).map (fun rp =>
      ((rp.1.zip rp.2).map (fun vc => (vc.1 : Int) * g vc.2)).sum),
      w ≤ (S : Int) := by
    intro w hw
    obtain ⟨rp, hrp, rfl⟩ := List.mem_map.mp hw
    have hrow : rp.1 ∈ X := (List.of_mem_zip hrp).1
    have hinner := int_sum_le_length_mul
      ((rp.1.zip rp.2).map (fun vc => (vc.1 : Int) * g vc.2)) 1 ?_
    · rw [List.length_map, mul_one] at hinner
      have hzl : (rp.1.zip rp.2).length ≤ rp.1.length := by
        rw [List.length_zip]
        exact Nat.min_le_left _ _
      have hrl : rp.1.length = S := hS.2 rp.1 hrow
      calc ((rp.1.zip rp.2).map (fun vc => (vc.1 : Int) * g vc.2)).sum
          ≤ ((rp.1.zip rp.2).length : Int) := hinner
        _ ≤ (S : Int) := by exact_mod_cast hrl ▸ hzl
    · intro u hu
      obtain ⟨vc, hvc, rfl⟩ := List.mem_map.mp hu
      have hv1 : vc.1 ∈ rp.1 := (List.of_mem_zip hvc).1
      have hvb := hB rp.1 hrow vc.1 hv1
      rcases hg vc.2 with h0 | h1
      · rw [h0, mul_zero]
        norm_num
      · rw [h1, mul_one]
        rcases hvb with h | h <;> rw [h] <;> norm_num
  have h := int_sum_le_length_mul _ (S : Int) houter
  rw [List.length_map] at h
  have hzl : (X.zip prefs).length ≤ T := by
    rw [List.length_zip]
    exact le_trans (Nat.min_le_left _ _) (le_of_eq hS.1)
  calc ((X.zip prefs).map (fun rp =>
        ((rp.1.zip rp.2).map (fun vc => (vc.1 : Int) * g vc.2)).sum)).sum
      ≤ ((X.zip prefs).length : Int) * (S : Int) := h
    _ ≤ (T : Int) * (S : Int) := by
        apply mul_le_mul_of_nonneg_right _ (by positivity)
        exact_mod_cast hzl
    _ = ((T * S : Nat) : Int) := by push_cast; ring

end TA

section C7

open TA

/-- C7 as stated is false: with a section table demanding `min_ta = [2]`
(S = 1) and the 1×1 all-zero solution, the undersupport objective returns
2, which exceeds T·S = 1. -/
theorem minimize_undersupport_exceeds_TS :
    Shaped 1 1 [[0]] ∧ Binary [[0]] ∧
    minimize_undersupport [2] [[0]] = 2 ∧
    ¬(minimize_undersupport [2] [[0]] ≤ ((1 * 1 : Nat) : Int)) := by
  constructor
  · constructor
    · rfl
    · intro row hrow
      simp only [List.mem_singleton] at hrow
      rw [hrow]
      rfl
  refine ⟨?_, by decide, by decide⟩
  intro row hrow v hv
  simp only [List.mem_singleton] at hrow
  subst hrow
  simp only [List.mem_singleton] at hv
  exact Or.inl hv

/-- C7 amended: every objective returns a non-negative integer;
overallocation, conflicts, unwilling and unpreferred are bounded by T·S for
every T×S 0/1 solution, and undersupport is bounded by T·S provided every
section's `min_ta` is at most T (true of the reference tables). -/
theorem objectives_nonneg_bounded (T S : Nat) (X : Mat)
    (max_assigned min_ta : List Nat) (daytime : List String)
    (prefs : List (List Char))
    (hS : Shaped T S X) (hB : Binary X)
    (hlen : min_ta.length = S) (hmT : ∀ m ∈ min_ta, m ≤ T) :
    (0 ≤ minimize_overallocation max_assigned X ∧
      minimize_overallocation max_assigned X ≤ ((T * S : Nat) : Int)) ∧
    (0 ≤ minimize_conflicts daytime X ∧
      minimize_conflicts daytime X ≤ ((T * S : Nat) : Int)) ∧
    (0 ≤ minimize_undersupport min_ta X ∧
      minimize_undersupport min_ta X ≤ ((T * S : Nat) : Int)) ∧
    (0 ≤ minimize_unwilling prefs X ∧
      minimize_unwilling prefs X ≤ ((T * S : Nat) : Int)) ∧
    (0 ≤ minimize_unpreferred prefs X ∧
      minimize_unpreferred prefs X ≤ ((T * S : Nat) : Int)) := by
  refine ⟨⟨minimize_overallocation_nonneg _ _,
      minimize_overallocation_le T S _ X hS hB⟩,
    ⟨minimize_conflicts_nonneg _ _, minimize_conflicts_le T S _ X hS⟩,
    ⟨minimize_undersupport_nonneg _ _,
      minimize_undersupport_le T S _ X hlen hmT⟩,
    ⟨?_, ?_⟩, ⟨?_, ?_⟩⟩
  · exact weighted_sum_nonneg X prefs (fun c => if c = 'U' then 1 else 0)
      (fun c => by by_cases h : c = 'U' <;> simp [h])
  · exact weighted_sum_le T S X prefs (fun c => if c = 'U' then 1 else 0)
      (fun c => by by_cases h : c = 'U' <;> simp [h]) hS hB
  · exact weighted_sum_nonneg X prefs
      (fun c => if c = 'W' ∧ c ≠ 'P' then 1 else 0)
      (fun c => by by_cases h : c = 'W' ∧ c ≠ 'P' <;> simp [h])
  · exact weighted_sum_le T S X prefs
      (fun c => if c = 'W' ∧ c ≠ 'P' then 1 else 0)
      (fun c => by by_cases h : c = 'W' ∧ c ≠ 'P' <;> simp [h]) hS hB

/-- Witness for the amended C7 on a concrete 2×2 workload. -/
theorem objectives_nonneg_bounded_witness :
    (0 ≤ minimize_overallocation [1, 1] [[1, 0], [0, 1]] ∧
      minimize_overallocation [1, 1] [[1, 0], [0, 1]] ≤ ((2 * 2 : Nat) : Int)) ∧
    (0 ≤ minimize_conflicts ["a", "b"] [[1, 0], [0, 1]] ∧
      minimize_conflicts ["a", "b"] [[1, 0], [0, 1]] ≤ ((2 * 2 : Nat) : Int)) ∧
    (0 ≤ minimize_undersupport [1, 1] [[1, 0], [0, 1]] ∧
      minimize_undersupport [1, 1] [[1, 0], [0, 1]] ≤ ((2 * 2 : Nat) : Int)) ∧
    (0 ≤ minimize_unwilling [['U', 'W'], ['P', 'W']] [[1, 0], [0, 1]] ∧
      minimize_unwilling [['U', 'W'], ['P', 'W']] [[1, 0], [0, 1]] ≤
        ((2 * 2 : Nat) : Int)) ∧
    (0 ≤ minimize_unpreferred [['U', 'W'], ['P', 'W']] [[1, 0], [0, 1]] ∧
      minimize_unpreferred [['U', 'W'], ['P', 'W']] [[1, 0], [0, 1]] ≤
        ((2 * 2 : Nat) : Int)) :=
  objectives_nonneg_bounded 2 2 [[1, 0], [0, 1]] [1, 1] [1, 1] ["a", "b"]
    [['U', 'W'], ['P', 'W']]
    ⟨by decide, by decide⟩ (by unfold Binary; decide) (by decide) (by decide)

end C7

namespace TA

/-- `conflicts_minimizer` (assignta copy.py lines 117–133): list the
assigned cells row-major, take their daytimes, mark pandas duplicates of
the daytime series alone (`keep='first'`, across ALL TAs), and zero every
marked cell. -/
def conflicts_minimizer (daytime : List String) (X : Mat) : Mat :=
  let idx := assignedIndices X
  let marks := duplicatedMarks (idx.map (fun p => daytime.getD p.2 ""))
  ((idx.zip marks).filterMap
    (fun pm => if pm.2 then some pm.1 else none)).foldl
    (fun Y p => setCell Y p.1 p.2 0) X

/-- Modelled from the spec's words, for comparison with the code: the
per-TA variant that groups each TA's own assignments by daytime, keeps the
first assignment of each duplicated slot and zeroes the rest of that TA's
row only. -/
def conflicts_minimizer_spec (daytime : List String) (X : Mat) : Mat :=
  X.map (fun row =>
    let ones := rowOnesFrom 0 row
    let marks := duplicatedMarks (ones.map (fun s => daytime.getD s ""))
    ((ones.zip marks).filterMap
      (fun sm => if sm.2 then some sm.1 else none)).foldl
      (fun r s => r.set s 0) row)

/-- Row-major (lexicographic) order on cell coordinates. -/
def lexLt (p q : Nat × Nat) : Prop :=
  p.1 < q.1 ∨ (p.1 = q.1 ∧ p.2 < q.2)

instance : DecidablePred (fun pq : (Nat × Nat) × (Nat × Nat) =>
    lexLt pq.1 pq.2) := fun pq => by unfold lexLt; infer_instance

theorem mem_rowOnesFrom : ∀ (row : List Nat) (s0 s : Nat),
    s ∈ rowOnesFrom s0 row ↔
      s0 ≤ s ∧ s - s0 < row.length ∧ row.getD (s - s0) 0 = 1 := by
  intro row
  induction row with
  | nil => intro s0 s; simp [rowOnesFrom]
  | cons v vs ih =>
    intro s0 s
    rw [rowOnesFrom, List.mem_append]
    constructor
    · rintro (h1 | h2)
      · by_cases hv : v = 1
        · rw [if_pos hv] at h1
          rw [List.mem_singleton] at h1
          subst h1
          refine ⟨le_refl _, by simp, ?_⟩
          simpa [Nat.sub_self] using hv
        · rw [if_neg hv] at h1
          exact absurd h1 (List.not_mem_nil s)
      · obtain ⟨ha, hb, hc⟩ := (ih (s0 + 1) s).mp h2
        refine ⟨by omega, by simp; omega, ?_⟩
        have hgt : s - s0 = (s - (s0 + 1)) + 1 := by omega
        rw [hgt]
        simpa using hc
    · rintro ⟨h1, h2, h3⟩
      by_cases hss : s = s0
      · subst hss
        rw [Nat.sub_self] at h3
        have hv : v = 1 := by simpa using h3
        exact Or.inl (by rw [if_pos hv]; exact List.mem_singleton.mpr rfl)
      · refine Or.inr ((ih (s0 + 1) s).mpr ⟨by omega, ?_, ?_⟩)
        · simp at h2
          omega
        · have hgt : s - s0 = (s - (s0 + 1)) + 1 := by omega
          rw [hgt] at h3
          simpa using h3

theorem mem_assignedIndicesFrom : ∀ (X : Mat) (t0 t s : Nat),
    (t, s) ∈ assignedIndicesFrom t0 X ↔
      t0 ≤ t ∧ t - t0 < X.length ∧
        s ∈ rowOnesFrom 0 (X.getD (t - t0) []) := by
  intro X
  induction X with
  | nil => intro t0 t s; simp [assignedIndicesFrom]
  | cons row rest ih =>
    intro t0 t s
    rw [assignedIndicesFrom, List.mem_append]
    constructor
    · rintro (h | h)
      · obtain ⟨s', hs', heq⟩ := List.mem_map.mp h
        have ht : t = t0 := (Prod.mk.injEq _ _ _ _ ▸ heq).1.symm
        have hs : s' = s := (Prod.mk.injEq _ _ _ _ ▸ heq).2
        subst ht
        refine ⟨le_refl _, by simp, ?_⟩
        rw [Nat.sub_self]
        simpa [hs] using hs'
      · obtain ⟨ha, hb, hc⟩ := (ih (t0 + 1) t s).mp h
        refine ⟨by omega, by simp; omega, ?_⟩
        have hgt : t - t0 = (t - (t0 + 1)) + 1 := by omega
        rw [hgt]
        simpa using hc
    · rintro ⟨h1, h2, h3⟩
      by_cases htt : t = t0
      · subst htt
        rw [Nat.sub_self] at h3
        exact Or.inl (List.mem_map.mpr ⟨s, by simpa using h3, rfl⟩)
      · refine Or.inr ((ih (t0 + 1) t s).mpr ⟨by omega, ?_, ?_⟩)
        · simp at h2
          omega
        · have hgt : t - t0 = (t - (t0 + 1)) + 1 := by omega
          rw [hgt] at h3
          simpa using h3

theorem rowOnesFrom_ge (row : List Nat) (s0 : Nat) :
    ∀ s ∈ rowOnesFrom s0 row, s0 ≤ s :=
  fun s hs => ((mem_rowOnesFrom row s0 s).mp hs).1

theorem rowOnesFrom_sorted : ∀ (row : List Nat) (s0 : Nat),
    (rowOnesFrom s0 row).Pairwise (· < ·) := by
  intro row
  induction row with
  | nil => intro s0; simp [rowOnesFrom]
  | cons v vs ih =>
    intro s0
    rw [rowOnesFrom, List.pairwise_append]
    refine ⟨?_, ih (s0 + 1), ?_⟩
    · by_cases hv : v = 1 <;> simp [hv]
    · intro a ha b hb
      have hb2 := rowOnesFrom_ge vs (s0 + 1) b hb
      by_cases hv : v = 1
      · rw [if_pos hv, List.mem_singleton] at ha
        omega
      · rw [if_neg hv] at ha
        exact absurd ha (List.not_mem_nil a)

theorem assignedIndicesFrom_sorted : ∀ (X : Mat) (t0 : Nat),
    (assignedIndicesFrom t0 X).Pairwise lexLt := by
  intro X
  induction X with
  | nil => intro t0; simp [assignedIndicesFrom]
  | cons row rest ih =>
    intro t0
    rw [assignedIndicesFrom, List.pairwise_append]
    refine ⟨?_, ih (t0 + 1), ?_⟩
    · refine List.Pairwise.map _ ?_ (rowOnesFrom_sorted row 0)
      intro a b hab
      exact Or.inr ⟨rfl, hab⟩
    · intro a ha b hb
      obtain ⟨s', _, rfl⟩ := List.mem_map.mp ha
      have := assignedIndicesFrom_fst_ge rest (t0 + 1) b hb
      exact Or.inl (by omega)

theorem getD_set {α : Type _} :
    ∀ (l : List α) (n : Nat) (a d : α) (m : Nat),
      (l.set n a).getD m d =
        if m = n ∧ n < l.length then a else l.getD m d := by
  intro l
  induction l with
  | nil => intro n a d m; simp
  | cons x xs ih =>
    intro n a d m
    cases n with
    | zero =>
      cases m with
      | zero => simp
      | succ m' => simp
    | succ n' =>
      cases m with
      | zero => simp
      | succ m' =>
        rw [List.set_cons_succ, List.getD_cons_succ, List.getD_cons_succ,
          ih n' a d m']
        simp only [List.length_cons]
        by_cases h : m' = n' ∧ n' < xs.length
        · rw [if_pos h, if_pos ⟨by omega, by omega⟩]
        · rw [if_neg h, if_neg (by omega)]

theorem length_setCell (X : Mat) (a b v : Nat) :
    (setCell X a b v).length = X.length := by
  simp [setCell]

theorem row_length_setCell (X : Mat) (a b v t : Nat) :
    ((setCell X a b v).getD t []).length = (X.getD t []).length := by
  unfold setCell
  rw [getD_set]
  by_cases h : t = a ∧ a < X.length
  · rw [if_pos h, List.length_set, h.1]
  · rw [if_neg h]

theorem getCell_setCell (X : Mat) (a b v t s : Nat)
    (ha : a < X.length) (hb : b < (X.getD a []).length) :
    getCell (setCell X a b v) t s =
      if t = a ∧ s = b then v else getCell X t s := by
  unfold getCell setCell
  rw [getD_set]
  by_cases hta : t = a
  · rw [if_pos ⟨hta, ha⟩, getD_set, hta]
    by_cases hsb : s = b
    · rw [if_pos ⟨hsb, hb⟩, if_pos ⟨rfl, hsb⟩]
    · rw [if_neg (by tauto), if_neg (by tauto)]
  · rw [if_neg (by tauto), if_neg (by tauto)]

theorem getCell_foldl_setzero :
    ∀ (L : List (Nat × Nat)) (X : Mat) (t s : Nat),
      (∀ p ∈ L, p.1 < X.length ∧ p.2 < (X.getD p.1 []).length) →
      getCell (L.foldl (fun Y p => setCell Y p.1 p.2 0) X) t s =
        if (t, s) ∈ L then 0 else getCell X t s := by
  intro L
  induction L with
  | nil => intro X t s _; simp
  | cons p ps ih =>
    intro X t s hrange
    rw [List.foldl_cons]
    have hp := hrange p (List.mem_cons_self p ps)
    have hrange' : ∀ q ∈ ps, q.1 < (setCell X p.1 p.2 0).length ∧
        q.2 < ((setCell X p.1 p.2 0).getD q.1 []).length := by
      intro q hq
      have := hrange q (List.mem_cons_of_mem p hq)
      rw [length_setCell, row_length_setCell]
      exact this
    rw [ih (setCell X p.1 p.2 0) t s hrange',
      getCell_setCell X p.1 p.2 0 t s hp.1 hp.2]
    by_cases hmem : (t, s) ∈ ps
    · simp [hmem]
    · by_cases hpp : (t, s) = p
      · have : t = p.1 ∧ s = p.2 := by
          rw [← hpp]
          exact ⟨rfl, rfl⟩
        simp [hmem, hpp ▸ List.mem_cons_self p ps, this]
      · have : ¬(t = p.1 ∧ s = p.2) := by
          intro hc
          exact hpp (Prod.ext hc.1 hc.2)
        simp [hmem, this, List.mem_cons, hpp]

end TA

namespace TA

instance lexLt_decidable (p q : Nat × Nat) : Decidable (lexLt p q) := by
  unfold lexLt
  infer_instance

theorem lexLt_asymm (a b : Nat × Nat) :
    lexLt a b → lexLt b a → False := by
  unfold lexLt
  omega

theorem filterMap_mark_cons_true {α : Type _} (y : α)
    (rest : List (α × Bool)) :
    ((y, true) :: rest).filterMap
        (fun pm => if pm.2 then some pm.1 else none) =
      y :: rest.filterMap (fun pm => if pm.2 then some pm.1 else none) := rfl

theorem filterMap_mark_cons_false {α : Type _} (y : α)
    (rest : List (α × Bool)) :
    ((y, false) :: rest).filterMap
        (fun pm => if pm.2 then some pm.1 else none) =
      rest.filterMap (fun pm => if pm.2 then some pm.1 else none) := rfl

theorem mem_dup_filterMap {α β : Type _} [DecidableEq β] (f : α → β) :
    ∀ (l : List α) (seen : List β) (x : α),
      (x ∈ (l.zip (dupMarksAux seen (l.map f))).filterMap
          (fun pm => if pm.2 then some pm.1 else none)) ↔
      ∃ i : Nat, ∃ h : i < l.length, l.get ⟨i, h⟩ = x ∧
        (f x ∈ seen ∨ f x ∈ (l.take i).map f) := by
  intro l
  induction l with
  | nil => intro seen x; simp [dupMarksAux]
  | cons y ys ih =>
    intro seen x
    rw [List.map_cons, dupMarksAux, List.zip_cons_cons]
    by_cases hy : f y ∈ seen
    · rw [decide_eq_true hy, filterMap_mark_cons_true, List.mem_cons,
        ih (f y :: seen) x]
      constructor
      · rintro (rfl | ⟨i, h, hget, hcase⟩)
        · exact ⟨0, by simp, rfl, Or.inl hy⟩
        · refine ⟨i + 1, by simpa using Nat.succ_lt_succ h, by simpa using hget, ?_⟩
          rw [List.take_succ_cons, List.map_cons]
          rcases hcase with hc | hc
          · rcases List.mem_cons.mp hc with hc2 | hc2
            · exact Or.inr (List.mem_cons.mpr (Or.inl hc2))
            · exact Or.inl hc2
          · exact Or.inr (List.mem_cons.mpr (Or.inr hc))
      · rintro ⟨i, h, hget, hcase⟩
        cases i with
        | zero => exact Or.inl (by simpa using hget.symm)
        | succ i' =>
          refine Or.inr ⟨i', Nat.lt_of_succ_lt_succ h, by simpa using hget, ?_⟩
          rw [List.take_succ_cons, List.map_cons] at hcase
          rcases hcase with hc | hc
          · exact Or.inl (List.mem_cons.mpr (Or.inr hc))
          · rcases List.mem_cons.mp hc with hc2 | hc2
            · exact Or.inl (List.mem_cons.mpr (Or.inl hc2))
            · exact Or.inr hc2
    · rw [decide_eq_false hy, filterMap_mark_cons_false,
        ih (f y :: seen) x]
      constructor
      · rintro ⟨i, h, hget, hcase⟩
        refine ⟨i + 1, by simpa using Nat.succ_lt_succ h, by simpa using hget, ?_⟩
        rw [List.take_succ_cons, List.map_cons]
        rcases hcase with hc | hc
        · rcases List.mem_cons.mp hc with hc2 | hc2
          · exact Or.inr (List.mem_cons.mpr (Or.inl hc2))
          · exact Or.inl hc2
        · exact Or.inr (List.mem_cons.mpr (Or.inr hc))
      · rintro ⟨i, h, hget, hcase⟩
        cases i with
        | zero =>
          have hxy : y = x := by simpa using hget
          rcases hcase with hs | hnil
          · exact absurd (hxy ▸ hs) hy
          · simp at hnil
        | succ i' =>
          refine ⟨i', Nat.lt_of_succ_lt_succ h, by simpa using hget, ?_⟩
          rw [List.take_succ_cons, List.map_cons] at hcase
          rcases hcase with hc | hc
          · exact Or.inl (List.mem_cons.mpr (Or.inr hc))
          · rcases List.mem_cons.mp hc with hc2 | hc2
            · exact Or.inl (List.mem_cons.mpr (Or.inl hc2))
            · exact Or.inr hc2

theorem mem_take_sorted_iff {α : Type _} (r : α → α → Prop)
    (hasym : ∀ a b, r a b → r b a → False)
    (l : List α) (hp : List.Pairwise r l) (i : Nat) (h : i < l.length)
    (q : α) : q ∈ l.take i ↔ q ∈ l ∧ r q (l.get ⟨i, h⟩) := by
  have hget := List.pairwise_iff_get.mp hp
  constructor
  · intro hq
    obtain ⟨j, hj⟩ := List.mem_iff_get.mp hq
    have hjmin : (j : Nat) < min i l.length := by
      simpa [List.length_take] using j.isLt
    have hjlen : (j : Nat) < l.length :=
      lt_of_lt_of_le hjmin (Nat.min_le_right _ _)
    have hji : (j : Nat) < i := lt_of_lt_of_le hjmin (Nat.min_le_left _ _)
    have hq2 : l.get ⟨j, hjlen⟩ = q := by
      rw [← hj]
      simp [List.getElem_take]
    refine ⟨List.mem_of_mem_take hq, ?_⟩
    have := hget ⟨(j : Nat), hjlen⟩ ⟨i, h⟩ (by exact_mod_cast hji)
    rwa [hq2] at this
  · rintro ⟨hql, hr⟩
    obtain ⟨j, hj⟩ := List.mem_iff_get.mp hql
    by_cases hji : (j : Nat) < i
    · have hjt : (j : Nat) < (l.take i).length := by
        rw [List.length_take]
        exact lt_min hji j.isLt
      have heq : (l.take i).get ⟨(j : Nat), hjt⟩ = q := by
        simp only [List.get_eq_getElem, List.getElem_take]
        simpa using hj
      exact List.mem_iff_get.mpr ⟨⟨(j : Nat), hjt⟩, heq⟩
    · exfalso
      by_cases hje : (j : Nat) = i
      · have : l.get ⟨i, h⟩ = q := by
          rw [← hj]
          congr 1
          exact Fin.ext hje.symm
        exact hasym q q (this ▸ hr) (this ▸ hr)
      · have hlt : i < (j : Nat) := by omega
        have h2 := hget ⟨i, h⟩ j (by exact_mod_cast hlt)
        rw [hj] at h2
        exact hasym q _ hr h2

end TA

namespace TA

theorem mem_assignedIndices_iff (X : Mat) (t s : Nat) :
    (t, s) ∈ assignedIndices X ↔
      t < X.length ∧ s < (X.getD t []).length ∧
        (X.getD t []).getD s 0 = 1 := by
  rw [assignedIndices, mem_assignedIndicesFrom]
  simp only [Nat.zero_le, true_and, Nat.sub_zero]
  constructor
  · rintro ⟨h1, h2⟩
    obtain ⟨_, hs1, hs2⟩ := (mem_rowOnesFrom _ 0 s).mp h2
    exact ⟨h1, by simpa using hs1, by simpa using hs2⟩
  · rintro ⟨h1, h2, h3⟩
    exact ⟨h1, (mem_rowOnesFrom _ 0 s).mpr
      ⟨Nat.zero_le s, by simpa using h2, by simpa using h3⟩⟩

theorem getCell_eq_one_iff (X : Mat) (t s : Nat) :
    getCell X t s = 1 ↔ (t, s) ∈ assignedIndices X := by
  rw [mem_assignedIndices_iff]
  unfold getCell
  constructor
  · intro h
    by_cases ht : t < X.length
    · by_cases hs : s < (X.getD t []).length
      · exact ⟨ht, hs, h⟩
      · have hdef : (X.getD t []).getD s 0 = 0 :=
          List.getD_eq_default _ _ (by omega)
        rw [hdef] at h
        exact absurd h (by norm_num)
    · have hrow : X.getD t [] = [] := List.getD_eq_default X [] (by omega)
      rw [hrow] at h
      simp at h
  · rintro ⟨_, _, h3⟩
    exact h3

theorem mem_conflicted_iff (daytime : List String) (X : Mat) (t s : Nat) :
    ((t, s) ∈ ((assignedIndices X).zip (duplicatedMarks
        ((assignedIndices X).map (fun p => daytime.getD p.2 "")))).filterMap
        (fun pm => if pm.2 then some pm.1 else none)) ↔
      (getCell X t s = 1 ∧ ∃ p ∈ assignedIndices X, lexLt p (t, s) ∧
        daytime.getD p.2 "" = daytime.getD s "") := by
  rw [duplicatedMarks, mem_dup_filterMap
    (fun p : Nat × Nat => daytime.getD p.2 "") (assignedIndices X) [] (t, s)]
  have hsorted : (assignedIndices X).Pairwise lexLt :=
    assignedIndicesFrom_sorted X 0
  constructor
  · rintro ⟨i, h, hget, hcase⟩
    rcases hcase with hfalse | htake
    · simp at hfalse
    · have hmem : (t, s) ∈ assignedIndices X := by
        rw [← hget]
        exact List.get_mem _ _ _
      refine ⟨(getCell_eq_one_iff X t s).mpr hmem, ?_⟩
      obtain ⟨p, hp, hfp⟩ := List.mem_map.mp htake
      have hts := (mem_take_sorted_iff lexLt lexLt_asymm
        (assignedIndices X) hsorted i h p).mp hp
      exact ⟨p, hts.1, hget ▸ hts.2, hfp⟩
  · rintro ⟨h1, p, hpmem, hplex, hptime⟩
    have hmem := (getCell_eq_one_iff X t s).mp h1
    obtain ⟨j, hj⟩ := List.mem_iff_get.mp hmem
    refine ⟨(j : Nat), j.isLt, by simpa using hj, Or.inr ?_⟩
    apply List.mem_map.mpr
    refine ⟨p, ?_, hptime⟩
    apply (mem_take_sorted_iff lexLt lexLt_asymm (assignedIndices X)
      hsorted (j : Nat) j.isLt p).mpr
    refine ⟨hpmem, ?_⟩
    have : (assignedIndices X).get ⟨(j : Nat), j.isLt⟩ = (t, s) := by
      simpa using hj
    rw [this]
    exact hplex

end TA

section C5

open TA

/-- C5 as stated is false: `conflicts_minimizer` marks duplicates of the
daytime series across ALL TAs, not per TA. With two sections sharing
daytime "a" and two TAs each holding one (non-conflicting) assignment, the
code zeroes the second TA's assignment, while the per-TA grouping of the
claim leaves the solution unchanged. -/
theorem conflicts_minimizer_not_per_ta :
    conflicts_minimizer ["a", "a"] [[1, 0], [0, 1]] = [[1, 0], [0, 0]] ∧
    conflicts_minimizer_spec ["a", "a"] [[1, 0], [0, 1]] = [[1, 0], [0, 1]] ∧
    conflicts_minimizer ["a", "a"] [[1, 0], [0, 1]] ≠
      conflicts_minimizer_spec ["a", "a"] [[1, 0], [0, 1]] :=
  ⟨by decide, by decide, by decide⟩

/-- C5 amended: `conflicts_minimizer` groups ALL assignments (across TAs)
by daytime in row-major order; a cell is zeroed iff it is assigned and some
row-major-earlier assigned cell (of any TA) has the same daytime; every
other cell is unchanged. -/
theorem conflicts_minimizer_zeroes (daytime : List String) (X : Mat)
    (t s : Nat) :
    getCell (conflicts_minimizer daytime X) t s =
      if getCell X t s = 1 ∧ ∃ p ∈ assignedIndices X, lexLt p (t, s) ∧
          daytime.getD p.2 "" = daytime.getD s ""
      then 0 else getCell X t s := by
  rw [conflicts_minimizer]
  have hrange : ∀ q ∈ ((assignedIndices X).zip (duplicatedMarks
      ((assignedIndices X).map (fun p => daytime.getD p.2 "")))).filterMap
      (fun pm => if pm.2 then some pm.1 else none),
      q.1 < X.length ∧ q.2 < (X.getD q.1 []).length := by
    intro q hq
    obtain ⟨pm, hpm, hsome⟩ := List.mem_filterMap.mp hq
    have hq2 : pm.1 = q := by
      by_cases hb : pm.2 = true
      · rw [if_pos hb] at hsome
        exact Option.some.inj hsome
      · rw [if_neg hb] at hsome
        exact absurd hsome (Option.noConfusion)
    have hidx : pm.1 ∈ assignedIndices X := (List.of_mem_zip hpm).1
    rw [hq2] at hidx
    have hmem : (q.1, q.2) ∈ assignedIndices X := by
      rwa [Prod.mk.eta]
    have := (mem_assignedIndices_iff X q.1 q.2).mp hmem
    exact ⟨this.1, this.2.1⟩
  rw [getCell_foldl_setzero _ X t s hrange,
    if_congr (mem_conflicted_iff daytime X t s) rfl rfl]

end C5

namespace TA

/-- The loop body of `unpreferred_minimizer` (assignta copy.py lines
255–267): compute the TA's preferred sections, pick the first understaffed
any-preferred section if one exists, else the TA's first preferred section,
and relocate; with no candidate the solution is left as is.  The in-loop
updates of `tas_per_section` touch no observable state (the understaffed
list is computed once before the loop) and are omitted. -/
def unpref_step (prefs : List (List Char)) (usp : List Nat) (Y : Mat)
    (p : Nat × Nat) : Mat :=
  match usp.head?,
      ((List.range (prefs.getD p.1 []).length).filter
        (fun s => decide ((prefs.getD p.1 []).getD s ' ' = 'P'))).head? with
  | some tgt, _ => setCell (setCell Y p.1 p.2 0) p.1 tgt 1
  | none, some tgt => setCell (setCell Y p.1 p.2 0) p.1 tgt 1
  | none, none => Y

/-- The target section `unpreferred_minimizer` relocates a W assignment of
TA `t` to (assignta copy.py lines 258–261). -/
def unpref_target (prefs : List (List Char)) (usp : List Nat) (t : Nat) :
    Option Nat :=
  match usp.head?,
      ((List.range (prefs.getD t []).length).filter
        (fun s => decide ((prefs.getD t []).getD s ' ' = 'P'))).head? with
  | some tgt, _ => some tgt
  | none, some tgt => some tgt
  | none, none => none

/-- The understaffed sections preferred by at least one TA, computed once
from the input solution (assignta copy.py line 252):
`np.where((tas_per_section < min_tas) & preferred_sections.any(axis=0))[0]`. -/
def undersupported_preferred (min_ta : List Nat) (prefs : List (List Char))
    (X : Mat) : List Nat :=
  (List.range min_ta.length).filter
    (fun s => decide (colSum X s < min_ta.getD s 0) &&
      prefs.any (fun row => decide (row.getD s ' ' = 'P')))

/-- `unpreferred_minimizer` (assignta copy.py lines 233–269): for each
assignment whose preference is W (and not P), relocate the TA to the first
understaffed any-preferred section, else to the TA's first preferred
section, else leave it. -/
def unpreferred_minimizer (min_ta : List Nat) (prefs : List (List Char))
    (X : Mat) : Mat :=
  ((assignedIndices X).filter (fun p =>
      decide ((prefs.getD p.1 []).getD p.2 ' ' = 'W') &&
      !decide ((prefs.getD p.1 []).getD p.2 ' ' = 'P'))).foldl
    (unpref_step prefs (undersupported_preferred min_ta prefs X)) X

theorem getCell_setCell_cases (X : Mat) (a b v t s : Nat) :
    getCell (setCell X a b v) t s = v ∨
    getCell (setCell X a b v) t s = getCell X t s := by
  unfold getCell setCell
  rw [getD_set]
  by_cases h1 : t = a ∧ a < X.length
  · rw [if_pos h1, getD_set]
    by_cases h2 : s = b ∧ b < (X.getD a []).length
    · rw [if_pos h2]
      exact Or.inl rfl
    · rw [if_neg h2, h1.1]
      exact Or.inr rfl
  · rw [if_neg h1]
    exact Or.inr rfl

theorem getCell_setCell_ne (X : Mat) (a b v t s : Nat)
    (h : ¬(t = a ∧ s = b)) :
    getCell (setCell X a b v) t s = getCell X t s := by
  unfold getCell setCell
  rw [getD_set]
  by_cases h1 : t = a ∧ a < X.length
  · rw [if_pos h1, getD_set]
    have h2 : ¬(s = b ∧ b < (X.getD a []).length) := by
      intro hc
      exact h ⟨h1.1, hc.1⟩
    rw [if_neg h2, h1.1]
  · rw [if_neg h1]

theorem getCell_setCell_zero_imp (X : Mat) (a b t s : Nat)
    (h : getCell (setCell X a b 0) t s = 1) : getCell X t s = 1 := by
  rcases getCell_setCell_cases X a b 0 t s with h2 | h2
  · rw [h2] at h
    exact absurd h (by norm_num)
  · rwa [h2] at h

theorem getCell_unpref_step (prefs : List (List Char)) (usp : List Nat)
    (Y : Mat) (p : Nat × Nat) (t s : Nat)
    (h : getCell (unpref_step prefs usp Y p) t s = 1) :
    getCell Y t s = 1 ∨
      (p.1 = t ∧ unpref_target prefs usp p.1 = some s) := by
  unfold unpref_step at h
  cases husp : usp.head? with
  | some tgt =>
    rw [husp] at h
    by_cases hts : t = p.1 ∧ s = tgt
    · refine Or.inr ⟨hts.1.symm, ?_⟩
      unfold unpref_target
      rw [husp, hts.2]
    · rw [getCell_setCell_ne _ _ _ _ _ _ (by tauto)] at h
      exact Or.inl (getCell_setCell_zero_imp Y p.1 p.2 t s h)
  | none =>
    rw [husp] at h
    cases hpts : ((List.range (prefs.getD p.1 []).length).filter
        (fun s => decide ((prefs.getD p.1 []).getD s ' ' = 'P'))).head? with
    | some tgt =>
      rw [hpts] at h
      by_cases hts : t = p.1 ∧ s = tgt
      · refine Or.inr ⟨hts.1.symm, ?_⟩
        unfold unpref_target
        rw [husp, hpts, hts.2]
      · rw [getCell_setCell_ne _ _ _ _ _ _ (by tauto)] at h
        exact Or.inl (getCell_setCell_zero_imp Y p.1 p.2 t s h)
    | none =>
      rw [hpts] at h
      exact Or.inl h

theorem unpref_fold_cells (prefs : List (List Char)) (usp : List Nat) :
    ∀ (L : List (Nat × Nat)) (Y : Mat) (t s : Nat),
      getCell (L.foldl (unpref_step prefs usp) Y) t s = 1 →
      getCell Y t s = 1 ∨
        ∃ p ∈ L, p.1 = t ∧ unpref_target prefs usp p.1 = some s := by
  intro L
  induction L with
  | nil => intro Y t s h; exact Or.inl h
  | cons p ps ih =>
    intro Y t s h
    rw [List.foldl_cons] at h
    rcases ih (unpref_step prefs usp Y p) t s h with h1 | ⟨q, hq, hqt, hqtar⟩
    · rcases getCell_unpref_step prefs usp Y p t s h1 with h2 | h2
      · exact Or.inl h2
      · exact Or.inr ⟨p, List.mem_cons_self p ps, h2.1, h2.2⟩
    · exact Or.inr ⟨q, List.mem_cons_of_mem p hq, hqt, hqtar⟩

end TA

section C6

open TA

/-- C6 as stated is false: with TA 0 holding a W assignment in section 0,
no P section of its own, and section 1 understaffed and preferred only by
TA 1, the code moves TA 0 into section 1 — a section TA 0 marked U — because
the understaffed-preferred list is computed from ANY TA's P marks. -/
theorem unpreferred_minimizer_counterexample :
    getCell (unpreferred_minimizer [0, 1] [['W', 'U'], ['U', 'P']]
      [[1, 0], [0, 0]]) 0 1 = 1 ∧
    getCell [[1, 0], [0, 0]] 0 1 = 0 ∧
    ([['W', 'U'], ['U', 'P']].getD 0 []).getD 1 ' ' = 'U' ∧
    'P' ∉ [['W', 'U'], ['U', 'P']].getD 0 [] := by
  refine ⟨by decide, by decide, by decide, by decide⟩

/-- C6 amended: every assignment `unpreferred_minimizer` adds (a cell going
0 → 1) is at the moved TA's computed target: the lowest-index section that
is understaffed in the input and marked P by at least one TA (not
necessarily the moved one) if such a section exists, otherwise the moved
TA's own lowest-index P section; with neither the W assignment is left
unchanged. -/
theorem unpreferred_minimizer_added (min_ta : List Nat)
    (prefs : List (List Char)) (X : Mat) (t s : Nat)
    (h : getCell (unpreferred_minimizer min_ta prefs X) t s = 1) :
    getCell X t s = 1 ∨
      unpref_target prefs (undersupported_preferred min_ta prefs X) t =
        some s := by
  rw [unpreferred_minimizer] at h
  rcases unpref_fold_cells prefs (undersupported_preferred min_ta prefs X)
      _ X t s h with h1 | ⟨p, _, hpt, hptar⟩
  · exact Or.inl h1
  · exact Or.inr (hpt ▸ hptar)

/-- Witness for the amended C6 at the counterexample input: the cell added
at (0, 1) is exactly the computed target of TA 0. -/
theorem unpreferred_minimizer_added_witness :
    getCell [[1, 0], [0, 0]] 0 1 = 1 ∨
      unpref_target [['W', 'U'], ['U', 'P']]
        (undersupported_preferred [0, 1] [['W', 'U'], ['U', 'P']]
          [[1, 0], [0, 0]]) 0 = some 1 :=
  unpreferred_minimizer_added [0, 1] [['W', 'U'], ['U', 'P']]
    [[1, 0], [0, 0]] 0 1 (by decide)

end C6

namespace TA

/-- Total number of assignments in a solution: `solution.sum()`. -/
def total (X : Mat) : Nat := (X.map List.sum).sum

/-- The relocation target of `unwilling_minimizer` for TA `t` (assignta
copy.py lines 219–224): the TA's first P section, else its first W
section, else none. -/
def unwilling_target (prefs : List (List Char)) (t : Nat) : Option Nat :=
  match ((List.range (prefs.getD t []).length).filter
      (fun s => decide ((prefs.getD t []).getD s ' ' = 'P'))).head?,
    ((List.range (prefs.getD t []).length).filter
      (fun s => decide ((prefs.getD t []).getD s ' ' = 'W'))).head? with
  | some tgt, _ => some tgt
  | none, some tgt => some tgt
  | none, none => none

/-- The loop body of `unwilling_minimizer` (assignta copy.py lines
226–229): unassign the U section, reassign the target (when one exists). -/
def unwilling_step (prefs : List (List Char)) (Y : Mat) (p : Nat × Nat) :
    Mat :=
  match unwilling_target prefs p.1 with
  | some tgt => setCell (setCell Y p.1 p.2 0) p.1 tgt 1
  | none => Y

/-- `unwilling_minimizer` (assignta copy.py lines 199–231): for each
assignment whose preference is U, relocate the TA to its first P section,
else its first W section, else leave it. -/
def unwilling_minimizer (prefs : List (List Char)) (X : Mat) : Mat :=
  ((assignedIndices X).filter (fun p =>
      decide ((prefs.getD p.1 []).getD p.2 ' ' = 'U'))).foldl
    (unwilling_step prefs) X

theorem sum_set_row (row : List Nat) :
    ∀ (b v : Nat), b < row.length →
      (row.set b v).sum + row.getD b 0 = row.sum + v := by
  induction row with
  | nil => intro b v h; simp at h
  | cons x xs ih =>
    intro b v h
    cases b with
    | zero => simp [List.set]; omega
    | succ b' =>
      have h' : b' < xs.length := by simpa using h
      have := ih b' v h'
      simp only [List.set_cons_succ, List.sum_cons, List.getD_cons_succ]
      omega

theorem total_set_row (Y : Mat) :
    ∀ (a : Nat) (r : List Nat), a < Y.length →
      total (Y.set a r) + (Y.getD a []).sum = total Y + r.sum := by
  induction Y with
  | nil => intro a r h; simp at h
  | cons row rest ih =>
    intro a r h
    cases a with
    | zero => simp [total, List.set]; omega
    | succ a' =>
      have h' : a' < rest.length := by simpa using h
      have := ih a' r h'
      simp only [List.set_cons_succ, total, List.map_cons, List.sum_cons,
        List.getD_cons_succ] at *
      omega

theorem total_setCell (Y : Mat) (a b v : Nat) (ha : a < Y.length)
    (hb : b < (Y.getD a []).length) :
    total (setCell Y a b v) + getCell Y a b = total Y + v := by
  unfold setCell getCell
  have e1 := total_set_row Y a ((Y.getD a []).set b v) ha
  have e2 := sum_set_row (Y.getD a []) b v hb
  omega

theorem getCell_set_one_preserve (Y : Mat) (a b t s : Nat)
    (h : getCell Y t s = 1) : getCell (setCell Y a b 1) t s = 1 := by
  rcases getCell_setCell_cases Y a b 1 t s with h2 | h2
  · exact h2
  · rwa [h2]

theorem unwilling_step_lengths (prefs : List (List Char)) (Y : Mat)
    (p : Nat × Nat) :
    (unwilling_step prefs Y p).length = Y.length ∧
    ∀ t, ((unwilling_step prefs Y p).getD t []).length =
      (Y.getD t []).length := by
  unfold unwilling_step
  cases unwilling_target prefs p.1 with
  | some tgt =>
    refine ⟨?_, ?_⟩
    · rw [length_setCell, length_setCell]
    · intro t
      rw [row_length_setCell, row_length_setCell]
  | none => exact ⟨rfl, fun _ => rfl⟩

theorem total_unwilling_step_some (prefs : List (List Char)) (Y : Mat)
    (p : Nat × Nat) (tg : Nat)
    (htg : unwilling_target prefs p.1 = some tg)
    (hp1 : p.1 < Y.length) (hp2 : p.2 < (Y.getD p.1 []).length)
    (htgr : tg < (Y.getD p.1 []).length) (hne : tg ≠ p.2)
    (hcell : getCell Y p.1 p.2 = 1) :
    total (unwilling_step prefs Y p) + getCell Y p.1 tg = total Y := by
  have hstep : unwilling_step prefs Y p =
      setCell (setCell Y p.1 p.2 0) p.1 tg 1 := by
    unfold unwilling_step
    rw [htg]
  rw [hstep]
  have e1 := total_setCell Y p.1 p.2 0 hp1 hp2
  rw [hcell] at e1
  have e2 := total_setCell (setCell Y p.1 p.2 0) p.1 tg 1
    (by rw [length_setCell]; exact hp1)
    (by rw [row_length_setCell]; exact htgr)
  have e3 : getCell (setCell Y p.1 p.2 0) p.1 tg = getCell Y p.1 tg :=
    getCell_setCell_ne Y p.1 p.2 0 p.1 tg (by tauto)
  rw [e3] at e2
  omega

end TA

namespace TA

/-- Invariant carried through `unwilling_minimizer`'s loop: every pending
U assignment is still present, in range, and its TA's relocation target is
in range and not itself a U section. -/
def UProps (prefs : List (List Char)) (L : List (Nat × Nat)) (Y : Mat) :
    Prop :=
  (∀ p ∈ L, p.1 < Y.length ∧ p.2 < (Y.getD p.1 []).length ∧
    getCell Y p.1 p.2 = 1) ∧
  (∀ p ∈ L, (prefs.getD p.1 []).getD p.2 ' ' = 'U') ∧
  (∀ p ∈ L, ∀ tg, unwilling_target prefs p.1 = some tg →
    tg < (Y.getD p.1 []).length ∧ (prefs.getD p.1 []).getD tg ' ' ≠ 'U')

theorem unwilling_step_eq_of_none (prefs : List (List Char)) (Y : Mat)
    (p : Nat × Nat) (h : unwilling_target prefs p.1 = none) :
    unwilling_step prefs Y p = Y := by
  unfold unwilling_step
  rw [h]

theorem unwilling_step_eq_of_some (prefs : List (List Char)) (Y : Mat)
    (p : Nat × Nat) (tg : Nat) (h : unwilling_target prefs p.1 = some tg) :
    unwilling_step prefs Y p = setCell (setCell Y p.1 p.2 0) p.1 tg 1 := by
  unfold unwilling_step
  rw [h]

theorem uprops_step (prefs : List (List Char)) (p : Nat × Nat)
    (ps : List (Nat × Nat)) (Y : Mat)
    (h : UProps prefs (p :: ps) Y) (hnd : (p :: ps).Nodup) :
    UProps prefs ps (unwilling_step prefs Y p) := by
  obtain ⟨hcells, hU, htg⟩ := h
  obtain ⟨hlen, hrowlen⟩ := unwilling_step_lengths prefs Y p
  refine ⟨?_, fun q hq => hU q (List.mem_cons_of_mem p hq),
    fun q hq tg h2 => ?_⟩
  · intro q hq
    have hq' := hcells q (List.mem_cons_of_mem p hq)
    refine ⟨by rw [hlen]; exact hq'.1, by rw [hrowlen]; exact hq'.2.1, ?_⟩
    cases htgp : unwilling_target prefs p.1 with
    | none =>
      rw [unwilling_step_eq_of_none prefs Y p htgp]
      exact hq'.2.2
    | some tgp =>
      rw [unwilling_step_eq_of_some prefs Y p tgp htgp]
      have hqp : q ≠ p := by
        intro e
        subst e
        exact (List.nodup_cons.mp hnd).1 hq
      apply getCell_set_one_preserve
      rw [getCell_setCell_ne]
      · exact hq'.2.2
      · intro hc
        exact hqp (Prod.ext hc.1 hc.2)
  · have := htg q (List.mem_cons_of_mem p hq) tg h2
    exact ⟨by rw [hrowlen]; exact this.1, this.2⟩

theorem total_unwilling_step_le (prefs : List (List Char)) (Y : Mat)
    (p : Nat × Nat)
    (hp : p.1 < Y.length ∧ p.2 < (Y.getD p.1 []).length ∧
      getCell Y p.1 p.2 = 1)
    (hU : (prefs.getD p.1 []).getD p.2 ' ' = 'U')
    (htg : ∀ tg, unwilling_target prefs p.1 = some tg →
      tg < (Y.getD p.1 []).length ∧ (prefs.getD p.1 []).getD tg ' ' ≠ 'U') :
    total (unwilling_step prefs Y p) ≤ total Y := by
  cases htgp : unwilling_target prefs p.1 with
  | none => rw [unwilling_step_eq_of_none prefs Y p htgp]
  | some tg =>
    have htgr := htg tg htgp
    have hne : tg ≠ p.2 := by
      intro e
      apply htgr.2
      rw [e]
      exact hU
    have := total_unwilling_step_some prefs Y p tg htgp hp.1 hp.2.1
      htgr.1 hne hp.2.2
    omega

theorem total_unwilling_fold_le (prefs : List (List Char)) :
    ∀ (L : List (Nat × Nat)) (Y : Mat), UProps prefs L Y → L.Nodup →
      total (L.foldl (unwilling_step prefs) Y) ≤ total Y := by
  intro L
  induction L with
  | nil => intro Y _ _; exact le_refl _
  | cons p ps ih =>
    intro Y h hnd
    rw [List.foldl_cons]
    have hps := uprops_step prefs p ps Y h hnd
    have hle := ih (unwilling_step prefs Y p) hps (List.nodup_cons.mp hnd).2
    have hstep_le := total_unwilling_step_le prefs Y p
      (h.1 p (List.mem_cons_self p ps)) (h.2.1 p (List.mem_cons_self p ps))
      (h.2.2 p (List.mem_cons_self p ps))
    exact le_trans hle hstep_le

theorem total_unwilling_fold_lt_aux (prefs : List (List Char)) :
    ∀ (L : List (Nat × Nat)) (Y : Mat), UProps prefs L Y → L.Nodup →
      (∃ q ∈ L, ∃ tg, unwilling_target prefs q.1 = some tg ∧
        getCell Y q.1 tg = 1) →
      total (L.foldl (unwilling_step prefs) Y) < total Y := by
  intro L
  induction L with
  | nil =>
    rintro Y _ _ ⟨q, hq, _⟩
    exact absurd hq (List.not_mem_nil q)
  | cons p ps ih =>
    rintro Y h hnd ⟨q, hq, tg, hqt, hqc⟩
    rw [List.foldl_cons]
    have hps := uprops_step prefs p ps Y h hnd
    have hnd2 := (List.nodup_cons.mp hnd).2
    rcases List.mem_cons.mp hq with rfl | hqmem
    · have hp := h.1 q (List.mem_cons_self q ps)
      have htgr := h.2.2 q (List.mem_cons_self q ps) tg hqt
      have hne : tg ≠ q.2 := by
        intro e
        apply htgr.2
        rw [e]
        exact h.2.1 q (List.mem_cons_self q ps)
      have hdec := total_unwilling_step_some prefs Y q tg hqt hp.1 hp.2.1
        htgr.1 hne hp.2.2
      rw [hqc] at hdec
      have hle := total_unwilling_fold_le prefs ps
        (unwilling_step prefs Y q) hps hnd2
      omega
    · have hpres : getCell (unwilling_step prefs Y p) q.1 tg = 1 := by
        cases htgp : unwilling_target prefs p.1 with
        | none =>
          rw [unwilling_step_eq_of_none prefs Y p htgp]
          exact hqc
        | some tgp =>
          rw [unwilling_step_eq_of_some prefs Y p tgp htgp]
          apply getCell_set_one_preserve
          rw [getCell_setCell_ne]
          · exact hqc
          · rintro ⟨e1, e2⟩
            have hU1 := h.2.1 p (List.mem_cons_self p ps)
            have hU2 := (h.2.2 q (List.mem_cons_of_mem p hqmem) tg hqt).2
            rw [e1, e2] at hU2
            exact hU2 hU1
      have hstep_le := total_unwilling_step_le prefs Y p
        (h.1 p (List.mem_cons_self p ps)) (h.2.1 p (List.mem_cons_self p ps))
        (h.2.2 p (List.mem_cons_self p ps))
      have := ih (unwilling_step prefs Y p) hps hnd2 ⟨q, hqmem, tg, hqt, hpres⟩
      omega

theorem total_unwilling_fold_lt (prefs : List (List Char)) :
    ∀ (L : List (Nat × Nat)) (Y : Mat), UProps prefs L Y → L.Nodup →
      (∃ p1 ∈ L, ∃ p2 ∈ L, p1 ≠ p2 ∧ p1.1 = p2.1 ∧
        (∃ tg, unwilling_target prefs p1.1 = some tg)) →
      total (L.foldl (unwilling_step prefs) Y) < total Y := by
  intro L
  induction L with
  | nil =>
    rintro Y _ _ ⟨p1, h1, _⟩
    exact absurd h1 (List.not_mem_nil p1)
  | cons p ps ih =>
    rintro Y h hnd ⟨p1, h1, p2, h2, hne12, hfst, tg, htg⟩
    rw [List.foldl_cons]
    have hps := uprops_step prefs p ps Y h hnd
    have hnd2 := (List.nodup_cons.mp hnd).2
    have hp := h.1 p (List.mem_cons_self p ps)
    have hstep_le := total_unwilling_step_le prefs Y p
      (h.1 p (List.mem_cons_self p ps)) (h.2.1 p (List.mem_cons_self p ps))
      (h.2.2 p (List.mem_cons_self p ps))
    rcases List.mem_cons.mp h1 with rfl | h1m
    · have h2m : p2 ∈ ps := by
        rcases List.mem_cons.mp h2 with e | m
        · exact absurd e.symm hne12
        · exact m
      have htgr := h.2.2 p1 (List.mem_cons_self p1 ps) tg htg
      have hne : tg ≠ p1.2 := by
        intro e
        apply htgr.2
        rw [e]
        exact h.2.1 p1 (List.mem_cons_self p1 ps)
      have hcell1 : getCell (unwilling_step prefs Y p1) p1.1 tg = 1 := by
        rw [unwilling_step_eq_of_some prefs Y p1 tg htg,
          getCell_setCell _ _ _ _ _ _
            (by rw [length_setCell]; exact hp.1)
            (by rw [row_length_setCell]; exact htgr.1),
          if_pos ⟨rfl, rfl⟩]
      have hwit : ∃ q ∈ ps, ∃ tg2, unwilling_target prefs q.1 = some tg2 ∧
          getCell (unwilling_step prefs Y p1) q.1 tg2 = 1 := by
        refine ⟨p2, h2m, tg, ?_, ?_⟩
        · rw [← hfst]
          exact htg
        · rw [← hfst]
          exact hcell1
      have := total_unwilling_fold_lt_aux prefs ps
        (unwilling_step prefs Y p1) hps hnd2 hwit
      omega
    · rcases List.mem_cons.mp h2 with rfl | h2m
      · have htg2 : unwilling_target prefs p2.1 = some tg := by
          rw [← hfst]
          exact htg
        have htgr := h.2.2 p2 (List.mem_cons_self p2 ps) tg htg2
        have hne : tg ≠ p2.2 := by
          intro e
          apply htgr.2
          rw [e]
          exact h.2.1 p2 (List.mem_cons_self p2 ps)
        have hcell1 : getCell (unwilling_step prefs Y p2) p2.1 tg = 1 := by
          rw [unwilling_step_eq_of_some prefs Y p2 tg htg2,
            getCell_setCell _ _ _ _ _ _
              (by rw [length_setCell]; exact hp.1)
              (by rw [row_length_setCell]; exact htgr.1),
            if_pos ⟨rfl, rfl⟩]
        have hwit : ∃ q ∈ ps, ∃ tg2, unwilling_target prefs q.1 = some tg2 ∧
            getCell (unwilling_step prefs Y p2) q.1 tg2 = 1 := by
          refine ⟨p1, h1m, tg, htg, ?_⟩
          rw [hfst]
          exact hcell1
        have := total_unwilling_fold_lt_aux prefs ps
          (unwilling_step prefs Y p2) hps hnd2 hwit
        omega
      · have := ih (unwilling_step prefs Y p) hps hnd2
          ⟨p1, h1m, p2, h2m, hne12, hfst, tg, htg⟩
        omega

end TA

namespace TA

theorem assignedIndices_nodup (X : Mat) : (assignedIndices X).Nodup := by
  have h := assignedIndicesFrom_sorted X 0
  exact h.imp (fun hab => by
    intro e
    subst e
    exact lexLt_asymm _ _ hab hab)

theorem head?_some_mem {α : Type _} (l : List α) (a : α)
    (h : l.head? = some a) : a ∈ l := by
  cases l with
  | nil => simp at h
  | cons x xs =>
    rw [List.head?_cons] at h
    rw [← Option.some.inj h]
    exact List.mem_cons_self x xs

theorem unwilling_target_mem (prefs : List (List Char)) (t tg : Nat)
    (h : unwilling_target prefs t = some tg) :
    tg < (prefs.getD t []).length ∧
      ((prefs.getD t []).getD tg ' ' = 'P' ∨
       (prefs.getD t []).getD tg ' ' = 'W') := by
  unfold unwilling_target at h
  cases hP : ((List.range (prefs.getD t []).length).filter
      (fun s => decide ((prefs.getD t []).getD s ' ' = 'P'))).head? with
  | some a =>
    rw [hP] at h
    have ha : a = tg := Option.some.inj h
    have hmem := head?_some_mem _ a hP
    obtain ⟨hr, hp⟩ := List.mem_filter.mp hmem
    subst ha
    exact ⟨List.mem_range.mp hr, Or.inl (by simpa using hp)⟩
  | none =>
    rw [hP] at h
    cases hW : ((List.range (prefs.getD t []).length).filter
        (fun s => decide ((prefs.getD t []).getD s ' ' = 'W'))).head? with
    | some a =>
      rw [hW] at h
      have ha : a = tg := Option.some.inj h
      have hmem := head?_some_mem _ a hW
      obtain ⟨hr, hp⟩ := List.mem_filter.mp hmem
      subst ha
      exact ⟨List.mem_range.mp hr, Or.inr (by simpa using hp)⟩
    | none =>
      rw [hW] at h
      exact absurd h (by simp)

theorem unwilling_target_isSome (prefs : List (List Char)) (t : Nat)
    (h : ∃ s, (prefs.getD t []).getD s ' ' = 'P' ∨
      (prefs.getD t []).getD s ' ' = 'W') :
    ∃ tg, unwilling_target prefs t = some tg := by
  obtain ⟨s, hs⟩ := h
  have hrange : s < (prefs.getD t []).length := by
    by_contra hge
    have hdef : (prefs.getD t []).getD s ' ' = ' ' :=
      List.getD_eq_default _ _ (by omega)
    rw [hdef] at hs
    rcases hs with h1 | h1 <;> exact absurd h1 (by decide)
  unfold unwilling_target
  cases hP : ((List.range (prefs.getD t []).length).filter
      (fun s => decide ((prefs.getD t []).getD s ' ' = 'P'))).head? with
  | some a => exact ⟨a, rfl⟩
  | none =>
    have hPnil := List.head?_eq_none_iff.mp hP
    rcases hs with hsP | hsW
    · exfalso
      have : s ∈ (List.range (prefs.getD t []).length).filter
          (fun s => decide ((prefs.getD t []).getD s ' ' = 'P')) :=
        List.mem_filter.mpr ⟨List.mem_range.mpr hrange, by simpa using hsP⟩
      rw [hPnil] at this
      exact List.not_mem_nil s this
    · have hmem : s ∈ (List.range (prefs.getD t []).length).filter
          (fun s => decide ((prefs.getD t []).getD s ' ' = 'W')) :=
        List.mem_filter.mpr ⟨List.mem_range.mpr hrange, by simpa using hsW⟩
      cases hW : ((List.range (prefs.getD t []).length).filter
          (fun s => decide ((prefs.getD t []).getD s ' ' = 'W'))).head? with
      | some a => exact ⟨a, rfl⟩
      | none =>
        exfalso
        rw [List.head?_eq_none_iff.mp hW] at hmem
        exact List.not_mem_nil s hmem

theorem uprops_init (T S : Nat) (prefs : List (List Char)) (X : Mat)
    (hS : Shaped T S X) (hPlen : prefs.length = T)
    (hProws : ∀ row ∈ prefs, row.length = S) :
    UProps prefs ((assignedIndices X).filter (fun p =>
      decide ((prefs.getD p.1 []).getD p.2 ' ' = 'U'))) X := by
  refine ⟨?_, ?_, ?_⟩
  · intro p hp
    have hidx := (List.mem_filter.mp hp).1
    have h2 : (p.1, p.2) ∈ assignedIndices X := by rwa [Prod.mk.eta]
    have h3 := (mem_assignedIndices_iff X p.1 p.2).mp h2
    exact ⟨h3.1, h3.2.1, h3.2.2⟩
  · intro p hp
    have := (List.mem_filter.mp hp).2
    simpa using this
  · intro p hp tg htg
    have hidx := (List.mem_filter.mp hp).1
    have h2 : (p.1, p.2) ∈ assignedIndices X := by rwa [Prod.mk.eta]
    have h3 := (mem_assignedIndices_iff X p.1 p.2).mp h2
    have htm := unwilling_target_mem prefs p.1 tg htg
    constructor
    · have hXrow : (X.getD p.1 []).length = S := by
        have hget : X.getD p.1 [] = X.get ⟨p.1, h3.1⟩ :=
          List.getD_eq_get X [] h3.1
        rw [hget]
        exact hS.2 _ (List.get_mem X p.1 h3.1)
      have hProw : (prefs.getD p.1 []).length = S := by
        have hlt : p.1 < prefs.length := by
          rw [hPlen, ← hS.1]
          exact h3.1
        have hget : prefs.getD p.1 [] = prefs.get ⟨p.1, hlt⟩ :=
          List.getD_eq_get prefs [] hlt
        rw [hget]
        exact hProws _ (List.get_mem prefs p.1 hlt)
      omega
    · intro e
      rcases htm.2 with h4 | h4 <;> rw [e] at h4 <;> exact absurd h4 (by decide)

theorem two_mem_of_two_le_length {α : Type _} (l : List α) (hnd : l.Nodup)
    (h : 2 ≤ l.length) : ∃ a ∈ l, ∃ b ∈ l, a ≠ b := by
  cases l with
  | nil => simp at h
  | cons x xs =>
    cases xs with
    | nil => simp at h
    | cons y ys =>
      refine ⟨x, List.mem_cons_self _ _, y,
        List.mem_cons_of_mem x (List.mem_cons_self y ys), ?_⟩
      intro e
      subst e
      exact (List.nodup_cons.mp hnd).1 (List.mem_cons_self x ys)

end TA

section C10

open TA

/-- C10: `unwilling_minimizer` never increases the total number of
assignments, and whenever some TA holds two or more U assignments and has
at least one P or W section, the total strictly decreases (all of that
TA's relocated U assignments collapse onto the same single target
section). -/
theorem unwilling_minimizer_total (T S : Nat) (prefs : List (List Char))
    (X : Mat) (hS : Shaped T S X) (hB : Binary X)
    (hPlen : prefs.length = T) (hProws : ∀ row ∈ prefs, row.length = S) :
    total (unwilling_minimizer prefs X) ≤ total X ∧
    ∀ t : Nat,
      2 ≤ ((List.range S).filter (fun s =>
        decide (getCell X t s = 1) &&
        decide ((prefs.getD t []).getD s ' ' = 'U'))).length →
      (∃ s, (prefs.getD t []).getD s ' ' = 'P' ∨
        (prefs.getD t []).getD s ' ' = 'W') →
      total (unwilling_minimizer prefs X) < total X := by
  have hL := uprops_init T S prefs X hS hPlen hProws
  have hnodup : ((assignedIndices X).filter (fun p =>
      decide ((prefs.getD p.1 []).getD p.2 ' ' = 'U'))).Nodup :=
    (assignedIndices_nodup X).filter _
  constructor
  · rw [unwilling_minimizer]
    exact total_unwilling_fold_le prefs _ X hL hnodup
  · intro t hcount hex
    have hfilnd : ((List.range S).filter (fun s =>
        decide (getCell X t s = 1) &&
        decide ((prefs.getD t []).getD s ' ' = 'U'))).Nodup :=
      (List.nodup_range S).filter _
    obtain ⟨s1, hs1, s2, hs2, hne⟩ :=
      two_mem_of_two_le_length _ hfilnd hcount
    have hmem : ∀ s, s ∈ (List.range S).filter (fun s =>
        decide (getCell X t s = 1) &&
        decide ((prefs.getD t []).getD s ' ' = 'U')) →
        (t, s) ∈ (assignedIndices X).filter (fun p =>
          decide ((prefs.getD p.1 []).getD p.2 ' ' = 'U')) := by
      intro s hsm
      obtain ⟨_, hpred⟩ := List.mem_filter.mp hsm
      rw [Bool.and_eq_true, decide_eq_true_eq, decide_eq_true_eq] at hpred
      refine List.mem_filter.mpr ⟨?_, by simpa using hpred.2⟩
      exact (getCell_eq_one_iff X t s).mp hpred.1
    obtain ⟨tg, htg⟩ := unwilling_target_isSome prefs t hex
    rw [unwilling_minimizer]
    apply total_unwilling_fold_lt prefs _ X hL hnodup
    refine ⟨(t, s1), hmem s1 hs1, (t, s2), hmem s2 hs2, ?_, rfl, tg, htg⟩
    intro e
    exact hne (congrArg Prod.snd e)

/-- Witness for C10: one TA with two U assignments and a P section; the
total drops from 2 to 1. -/
theorem unwilling_minimizer_total_witness :
    total (unwilling_minimizer [['U', 'U', 'P']] [[1, 1, 0]]) ≤
      total [[1, 1, 0]] ∧
    total (unwilling_minimizer [['U', 'U', 'P']] [[1, 1, 0]]) <
      total [[1, 1, 0]] := by
  have h := unwilling_minimizer_total 1 3 [['U', 'U', 'P']] [[1, 1, 0]]
    ⟨rfl, by decide⟩ (by unfold Binary; decide) rfl (by decide)
  exact ⟨h.1, h.2 0 (by decide) ⟨2, Or.inl (by decide)⟩⟩

end C10

namespace TA

/-- Decrement a counter vector at one index (`counts[i] -= 1`). -/
def dec (l : List Nat) (i : Nat) : List Nat := l.set i (l.getD i 0 - 1)

/-- Increment a counter vector at one index (`counts[i] += 1`). -/
def inc (l : List Nat) (i : Nat) : List Nat := l.set i (l.getD i 0 + 1)

/-- `np.argmax`: index of the first maximum, `none` on the empty array
(numpy raises there; the program only reaches it on consistent states). -/
def npArgmax : List Nat → Option Nat
  | [] => none
  | x :: xs =>
    match npArgmax xs with
    | none => some 0
    | some j => if xs.getD j 0 > x then some (j + 1) else some 0

/-- `np.unique`: sorted distinct values. -/
def npUnique (l : List Nat) : List Nat := (l.mergeSort (· ≤ ·)).dedup

/-- One removal pass of `overallocation_minimizer` (assignta copy.py lines
89–104): walk the TA's currently assigned sections and unassign those whose
preference satisfies `cond`, updating both counter vectors.  State is
`(solution, sections_per_ta, tas_per_section)`. -/
def overalloc_remove (prefs : List (List Char)) (ta : Nat)
    (cond : Char → Bool) (st : Mat × List Nat × List Nat) :
    Mat × List Nat × List Nat :=
  (rowOnesFrom 0 (st.1.getD ta [])).foldl
    (fun st sec =>
      if cond ((prefs.getD ta []).getD sec ' ') then
        (setCell st.1 ta sec 0, dec st.2.1 ta, dec st.2.2 sec)
      else st) st

/-- The `while` loop of `overallocation_minimizer` (assignta copy.py lines
106–113), with explicit fuel: while the TA exceeds its cap, remove it from
its assigned section currently holding the most TAs.  Each iteration
decrements `sections_per_ta[ta]`, so `sections_per_ta[ta] + 1` fuel is
enough for the loop to exit by its own condition; the `none` arm mirrors
numpy's error on an empty `argmax` and is unreachable on consistent
states. -/
def overalloc_while (caps : List Nat) (ta : Nat) :
    Nat → (Mat × List Nat × List Nat) → Mat × List Nat × List Nat
  | 0, st => st
  | fuel + 1, st =>
    if st.2.1.getD ta 0 > caps.getD ta 0 then
      match npArgmax ((rowOnesFrom 0 (st.1.getD ta [])).map
          (fun s => st.2.2.getD s 0)) with
      | some j =>
        overalloc_while caps ta fuel
          (setCell st.1 ta ((rowOnesFrom 0 (st.1.getD ta [])).getD j 0) 0,
           dec st.2.1 ta, dec st.2.2 ((rowOnesFrom 0 (st.1.getD ta [])).getD j 0))
      | none => st
    else st

/-- `overallocation_minimizer` (assignta copy.py lines 69–115). -/
def overallocation_minimizer (max_assigned : List Nat)
    (prefs : List (List Char)) (X : Mat) : Mat :=
  let spt := X.map List.sum
  let tps := (List.range (X.headD []).length).map (colSum X)
  let overallocated := (List.range X.length).filter
    (fun t => decide (spt.getD t 0 > max_assigned.getD t 0))
  (overallocated.foldl (fun st ta =>
    let st1 := overalloc_remove prefs ta (fun c => decide (c = 'U')) st
    let st2 := overalloc_remove prefs ta
      (fun c => decide (c = 'W') && !decide (c = 'U')) st1
    overalloc_while max_assigned ta (st2.2.1.getD ta 0 + 1) st2)
    (X, spt, tps)).1

/-- The loop body of `undersupport_minimizer` (assignta copy.py lines
167–195).  State is `(solution, tas_per_section, overallocated sections,
underallocated sections)`; `overTAs` is the fixed list of overallocated
TAs. -/
def undersupport_step (min_tas : List Nat) (prefs : List (List Char))
    (overTAs : List Nat)
    (st : Mat × List Nat × List Nat × List Nat) (ta : Nat) :
    Mat × List Nat × List Nat × List Nat :=
  if decide (ta ∈ overTAs) || decide (st.2.2.2 = []) then st
  else
    match (st.2.2.2.filter
        (fun s => decide ((prefs.getD ta []).getD s ' ' = 'P'))).head? with
    | tgtP =>
      let target := match tgtP with
        | some tgt => tgt
        | none => st.2.2.2.headD 0
      match (rowOnesFrom 0 (st.1.getD ta [])).head? with
      | none => st
      | some a0 =>
        let tps1 := dec st.2.1 a0
        let over1 := if tps1.getD a0 0 = min_tas.getD a0 0 then
            st.2.2.1.filter (fun s => !decide (s = a0)) else st.2.2.1
        let tps2 := inc tps1 target
        let under1 := if tps2.getD target 0 = min_tas.getD target 0 then
            st.2.2.2.filter (fun s => !decide (s = target)) else st.2.2.2
        (setCell (setCell st.1 ta a0 0) ta target 1, tps2, over1, under1)

/-- `undersupport_minimizer` (assignta copy.py lines 135–197). -/
def undersupport_minimizer (min_tas max_assigned : List Nat)
    (prefs : List (List Char)) (X : Mat) : Mat :=
  let spt := X.map List.sum
  let tps := (List.range (X.headD []).length).map (colSum X)
  let overallocated := (List.range (X.headD []).length).filter
    (fun s => decide (tps.getD s 0 > min_tas.getD s 0))
  let underallocated := (List.range (X.headD []).length).filter
    (fun s => decide (tps.getD s 0 < min_tas.getD s 0))
  let overTAs := (List.range X.length).filter
    (fun t => decide (spt.getD t 0 > max_assigned.getD t 0))
  let avail := npUnique
    (((List.range X.length).filter (fun t => decide (spt.getD t 0 = 0))) ++
     ((assignedIndices X).filter (fun p =>
       decide ((prefs.getD p.1 []).getD p.2 ' ' = 'U'))).map Prod.fst ++
     ((List.range X.length).filter (fun t =>
       decide (0 < (overallocated.map (fun s => getCell X t s)).sum))))
  (avail.foldl (undersupport_step min_tas prefs overTAs)
    (X, tps, overallocated, underallocated)).1

/-- `solution.flatten()`, row-major. -/
def npFlatten (X : Mat) : List Nat := X.flatten

/-- Flip the selected positions of the flat vector
(`solution_flat[shuffle_indices] = 1 - solution_flat[shuffle_indices]`). -/
def flipAt (flat : List Nat) (idxs : List Nat) : List Nat :=
  idxs.foldl (fun l i => l.set i (1 - l.getD i 0)) flat

/-- `.reshape(num_tas, num_sections)`, row-major. -/
def npReshape (T S : Nat) (flat : List Nat) : Mat :=
  (List.range T).map (fun t => (flat.drop (t * S)).take S)

/-- `shuffle_solutions` (assignta copy.py lines 271–292); the randomly
chosen solution and the sampled distinct flat indices are parameters. -/
def shuffle_solutions (idxs : List Nat) (X : Mat) : Mat :=
  npReshape X.length (X.headD []).length (flipAt (npFlatten X) idxs)

/-- `mutate_solutions` (assignta copy.py lines 294–307); the sampled
boolean mutation mask is a parameter. -/
def mutate_solutions (mask : List (List Bool)) (X : Mat) : Mat :=
  List.zipWith (fun row mrow =>
    List.zipWith (fun (v : Nat) (m : Bool) => if m then 1 - v else v)
      row mrow) X mask

end TA

namespace TA

theorem shaped_setCell (T S : Nat) (X : Mat) (a b v : Nat)
    (h : Shaped T S X) : Shaped T S (setCell X a b v) := by
  refine ⟨by rw [length_setCell]; exact h.1, ?_⟩
  intro row hrow
  unfold setCell at hrow
  by_cases ha : a < X.length
  · rcases List.mem_or_eq_of_mem_set hrow with h2 | h2
    · exact h.2 row h2
    · subst h2
      rw [List.length_set]
      have hg : X.getD a [] = X.get ⟨a, ha⟩ := List.getD_eq_get X [] ha
      rw [hg]
      exact h.2 _ (List.get_mem X a ha)
  · rw [List.set_eq_of_length_le (by omega)] at hrow
    exact h.2 row hrow

theorem binary_setCell (X : Mat) (a b v : Nat) (hv : v = 0 ∨ v = 1)
    (h : Binary X) : Binary (setCell X a b v) := by
  intro row hrow u hu
  unfold setCell at hrow
  by_cases ha : a < X.length
  · rcases List.mem_or_eq_of_mem_set hrow with h2 | h2
    · exact h row h2 u hu
    · subst h2
      rcases List.mem_or_eq_of_mem_set hu with h3 | h3
      · have hg : X.getD a [] = X.get ⟨a, ha⟩ := List.getD_eq_get X [] ha
        rw [hg] at h3
        exact h _ (List.get_mem X a ha) u h3
      · rw [h3]
        exact hv
  · rw [List.set_eq_of_length_le (by omega)] at hrow
    exact h row hrow u hu

/-- Shape plus 0/1 entries, the property every agent must preserve. -/
def SB (T S : Nat) (Y : Mat) : Prop := Shaped T S Y ∧ Binary Y

theorem sb_setCell (T S : Nat) (X : Mat) (a b v : Nat) (hv : v = 0 ∨ v = 1)
    (h : SB T S X) : SB T S (setCell X a b v) :=
  ⟨shaped_setCell T S X a b v h.1, binary_setCell X a b v hv h.2⟩

theorem preserve_foldl {σ α : Type _} (P : σ → Prop) (f : σ → α → σ)
    (hf : ∀ s x, P s → P (f s x)) :
    ∀ (L : List α) (s : σ), P s → P (L.foldl f s) := by
  intro L
  induction L with
  | nil => intro s h; exact h
  | cons x xs ih =>
    intro s h
    rw [List.foldl_cons]
    exact ih (f s x) (hf s x h)

theorem sb_unwilling_step (T S : Nat) (prefs : List (List Char)) (Y : Mat)
    (p : Nat × Nat) (h : SB T S Y) : SB T S (unwilling_step prefs Y p) := by
  unfold unwilling_step
  split
  · exact sb_setCell T S _ _ _ 1 (Or.inr rfl)
      (sb_setCell T S Y p.1 p.2 0 (Or.inl rfl) h)
  · exact h

theorem sb_unpref_step (T S : Nat) (prefs : List (List Char))
    (usp : List Nat) (Y : Mat) (p : Nat × Nat) (h : SB T S Y) :
    SB T S (unpref_step prefs usp Y p) := by
  unfold unpref_step
  split
  · exact sb_setCell T S _ _ _ 1 (Or.inr rfl)
      (sb_setCell T S Y p.1 p.2 0 (Or.inl rfl) h)
  · exact sb_setCell T S _ _ _ 1 (Or.inr rfl)
      (sb_setCell T S Y p.1 p.2 0 (Or.inl rfl) h)
  · exact h

theorem sb_overalloc_remove (T S : Nat) (prefs : List (List Char))
    (ta : Nat) (cond : Char → Bool) (st : Mat × List Nat × List Nat)
    (h : SB T S st.1) : SB T S (overalloc_remove prefs ta cond st).1 := by
  unfold overalloc_remove
  refine preserve_foldl (fun st : Mat × List Nat × List Nat => SB T S st.1)
    _ ?_ _ st h
  intro s x hs
  dsimp only
  split
  · exact sb_setCell T S s.1 ta x 0 (Or.inl rfl) hs
  · exact hs

theorem sb_overalloc_while (T S : Nat) (caps : List Nat) (ta : Nat) :
    ∀ (fuel : Nat) (st : Mat × List Nat × List Nat), SB T S st.1 →
      SB T S (overalloc_while caps ta fuel st).1 := by
  intro fuel
  induction fuel with
  | zero => intro st h; exact h
  | succ n ih =>
    intro st h
    unfold overalloc_while
    split
    · split
      · exact ih _ (sb_setCell T S st.1 ta _ 0 (Or.inl rfl) h)
      · exact h
    · exact h

theorem sb_undersupport_step (T S : Nat) (min_tas : List Nat)
    (prefs : List (List Char)) (overTAs : List Nat)
    (st : Mat × List Nat × List Nat × List Nat) (ta : Nat)
    (h : SB T S st.1) :
    SB T S (undersupport_step min_tas prefs overTAs st ta).1 := by
  unfold undersupport_step
  split
  · exact h
  · split
    · exact h
    · exact sb_setCell T S _ _ _ 1 (Or.inr rfl)
        (sb_setCell T S st.1 ta _ 0 (Or.inl rfl) h)

end TA

namespace TA

theorem flipAt_props (n : Nat) :
    ∀ (idxs : List Nat) (flat : List Nat),
      flat.length = n → (∀ u ∈ flat, u = 0 ∨ u = 1) →
      (flipAt flat idxs).length = n ∧
        ∀ u ∈ flipAt flat idxs, u = 0 ∨ u = 1 := by
  intro idxs
  induction idxs with
  | nil => intro flat h1 h2; exact ⟨h1, h2⟩
  | cons i rest ih =>
    intro flat h1 h2
    rw [flipAt, List.foldl_cons]
    refine ih (flat.set i (1 - flat.getD i 0)) (by rw [List.length_set]; exact h1) ?_
    intro u hu
    rcases List.mem_or_eq_of_mem_set hu with h3 | h3
    · exact h2 u h3
    · by_cases hi : i < flat.length
      · have hg : flat.getD i 0 = flat.get ⟨i, hi⟩ := List.getD_eq_get flat 0 hi
        rcases h2 _ (List.get_mem flat i hi) with h4 | h4 <;>
          rw [h3, hg, h4] <;> simp
      · rw [h3, List.getD_eq_default flat 0 (by omega)]
        simp

theorem npFlatten_length (T S : Nat) (X : Mat) (hS : Shaped T S X) :
    (npFlatten X).length = T * S := by
  unfold npFlatten
  rw [List.length_flatten]
  have hrep : X.map List.length = List.replicate T S := by
    rw [List.eq_replicate_iff]
    constructor
    · rw [List.length_map]
      exact hS.1
    · intro b hb
      obtain ⟨row, hrow, rfl⟩ := List.mem_map.mp hb
      exact hS.2 row hrow
  rw [hrep]
  simp [List.sum_replicate]

theorem npFlatten_binary (X : Mat) (hB : Binary X) :
    ∀ u ∈ npFlatten X, u = 0 ∨ u = 1 := by
  intro u hu
  obtain ⟨row, hrow, hmem⟩ := List.mem_flatten.mp hu
  exact hB row hrow u hmem

theorem sb_npReshape (T S : Nat) (flat : List Nat)
    (hlen : flat.length = T * S) (hbin : ∀ u ∈ flat, u = 0 ∨ u = 1) :
    SB T S (npReshape T S flat) := by
  refine ⟨⟨by rw [npReshape, List.length_map, List.length_range], ?_⟩, ?_⟩
  · intro row hrow
    obtain ⟨t, ht, rfl⟩ := List.mem_map.mp hrow
    have htT := List.mem_range.mp ht
    rw [List.length_take, List.length_drop, hlen]
    have hsub : T * S - t * S = (T - t) * S := by
      rw [Nat.sub_mul]
    rw [hsub]
    have h1 : 1 ≤ T - t := by omega
    have := Nat.mul_le_mul_right S h1
    omega
  · intro row hrow u hu
    obtain ⟨t, _, rfl⟩ := List.mem_map.mp hrow
    exact hbin u (List.mem_of_mem_drop (List.mem_of_mem_take hu))

theorem mem_zipWith_exists {α β γ : Type _} (f : α → β → γ) :
    ∀ (a : List α) (b : List β) (c : γ), c ∈ List.zipWith f a b →
      ∃ x ∈ a, ∃ y ∈ b, c = f x y := by
  intro a
  induction a with
  | nil => intro b c h; simp at h
  | cons x xs ih =>
    intro b c h
    cases b with
    | nil => simp at h
    | cons y ys =>
      rw [List.zipWith_cons_cons] at h
      rcases List.mem_cons.mp h with rfl | h2
      · exact ⟨x, List.mem_cons_self x xs, y, List.mem_cons_self y ys, rfl⟩
      · obtain ⟨x', hx', y', hy', rfl⟩ := ih ys c h2
        exact ⟨x', List.mem_cons_of_mem x hx', y',
          List.mem_cons_of_mem y hy', rfl⟩

theorem sb_shuffle (T S : Nat) (idxs : List Nat) (X : Mat)
    (h : SB T S X) : SB T S (shuffle_solutions idxs X) := by
  unfold shuffle_solutions
  have hTX : X.length = T := h.1.1
  have hflat := npFlatten_length T S X h.1
  have hfbin := npFlatten_binary X h.2
  have hflip := flipAt_props (T * S) idxs (npFlatten X) hflat hfbin
  have hhead : (X.headD []).length = S ∨ X = [] := by
    cases X with
    | nil => exact Or.inr rfl
    | cons r rs =>
      exact Or.inl (h.1.2 r (List.mem_cons_self r rs))
  rcases hhead with hh | hh
  · rw [hTX, hh]
    exact sb_npReshape T S _ hflip.1 hflip.2
  · subst hh
    have hT0 : T = 0 := by simpa using hTX.symm
    subst hT0
    exact sb_npReshape 0 S _ (by simpa using hflip.1) hflip.2

theorem sb_mutate (T S : Nat) (mask : List (List Bool)) (X : Mat)
    (h : SB T S X) (hmlen : mask.length = X.length)
    (hmrows : ∀ mrow ∈ mask, mrow.length = S) :
    SB T S (mutate_solutions mask X) := by
  unfold mutate_solutions
  refine ⟨⟨?_, ?_⟩, ?_⟩
  · rw [List.length_zipWith, hmlen, h.1.1]
    exact min_self T
  · intro row hrow
    obtain ⟨r, hr, mrow, hmrow, rfl⟩ :=
      mem_zipWith_exists _ X mask row hrow
    rw [List.length_zipWith, h.1.2 r hr, hmrows mrow hmrow]
    exact min_self S
  · intro row hrow u hu
    obtain ⟨r, hr, mrow, hmrow, rfl⟩ :=
      mem_zipWith_exists _ X mask row hrow
    obtain ⟨v, hv, m, _, rfl⟩ := mem_zipWith_exists _ r mrow u hu
    rcases h.2 r hr v hv with h4 | h4 <;> rw [h4] <;> cases m <;> simp

end TA

section C8

open TA

/-- C8: each of the seven agents, applied to a T×S 0/1 solution (with a
mutation mask of matching shape for `mutate_solutions`), returns a matrix
of shape exactly T×S with every entry 0 or 1. -/
theorem agents_preserve_shape_binary (T S : Nat) (X : Mat)
    (max_assigned min_tas : List Nat) (daytime : List String)
    (prefs : List (List Char)) (idxs : List Nat) (mask : List (List Bool))
    (hS : Shaped T S X) (hB : Binary X)
    (hmlen : mask.length = X.length)
    (hmrows : ∀ mrow ∈ mask, mrow.length = S) :
    SB T S (overallocation_minimizer max_assigned prefs X) ∧
    SB T S (conflicts_minimizer daytime X) ∧
    SB T S (undersupport_minimizer min_tas max_assigned prefs X) ∧
    SB T S (unwilling_minimizer prefs X) ∧
    SB T S (unpreferred_minimizer min_tas prefs X) ∧
    SB T S (shuffle_solutions idxs X) ∧
    SB T S (mutate_solutions mask X) := by
  have hSB : SB T S X := ⟨hS, hB⟩
  refine ⟨?_, ?_, ?_, ?_, ?_, sb_shuffle T S idxs X hSB,
    sb_mutate T S mask X hSB hmlen hmrows⟩
  · rw [overallocation_minimizer]
    refine preserve_foldl (fun st : Mat × List Nat × List Nat => SB T S st.1)
      _ ?_ _ _ hSB
    intro s ta hs
    dsimp only
    exact sb_overalloc_while T S max_assigned ta _ _
      (sb_overalloc_remove T S prefs ta _ _
        (sb_overalloc_remove T S prefs ta _ s hs))
  · rw [conflicts_minimizer]
    refine preserve_foldl (SB T S) _ ?_ _ _ hSB
    intro s p hs
    exact sb_setCell T S s p.1 p.2 0 (Or.inl rfl) hs
  · rw [undersupport_minimizer]
    refine preserve_foldl
      (fun st : Mat × List Nat × List Nat × List Nat => SB T S st.1)
      _ ?_ _ _ hSB
    intro s ta hs
    exact sb_undersupport_step T S min_tas prefs _ s ta hs
  · rw [unwilling_minimizer]
    refine preserve_foldl (SB T S) _ ?_ _ _ hSB
    intro s p hs
    exact sb_unwilling_step T S prefs s p hs
  · rw [unpreferred_minimizer]
    refine preserve_foldl (SB T S) _ ?_ _ _ hSB
    intro s p hs
    exact sb_unpref_step T S prefs _ s p hs

/-- Witness for C8 on a concrete 2×2 workload. -/
theorem agents_preserve_shape_binary_witness :
    SB 2 2 (overallocation_minimizer [1, 1] [['U', 'W'], ['P', 'W']]
      [[1, 0], [0, 1]]) ∧
    SB 2 2 (conflicts_minimizer ["a", "b"] [[1, 0], [0, 1]]) ∧
    SB 2 2 (undersupport_minimizer [1, 1] [1, 1] [['U', 'W'], ['P', 'W']]
      [[1, 0], [0, 1]]) ∧
    SB 2 2 (unwilling_minimizer [['U', 'W'], ['P', 'W']] [[1, 0], [0, 1]]) ∧
    SB 2 2 (unpreferred_minimizer [1, 1] [['U', 'W'], ['P', 'W']]
      [[1, 0], [0, 1]]) ∧
    SB 2 2 (shuffle_solutions [0, 3] [[1, 0], [0, 1]]) ∧
    SB 2 2 (mutate_solutions [[true, false], [false, true]]
      [[1, 0], [0, 1]]) :=
  agents_preserve_shape_binary 2 2 [[1, 0], [0, 1]] [1, 1] [1, 1]
    ["a", "b"] [['U', 'W'], ['P', 'W']] [0, 3]
    [[true, false], [false, true]]
    ⟨rfl, by decide⟩ (by unfold Binary; decide) rfl (by decide)

end C8

namespace Evo

/-- `Evo.remove_dominated` (evo copy.py lines 64–66) on the population:
compute the non-dominated key set and rebuild the dict
(`{k: self.pop[k] for k in nds}`). -/
def remove_dominated {σ : Type _} (pop : List (Eval × σ)) :
    List (Eval × σ) :=
  (nds_keys (pop.map Prod.fst)).filterMap
    (fun k => (dictLookup pop k).map (fun v => (k, v)))

/-- One iteration of `Evo.evolve`'s loop body (evo copy.py lines 87–107):
run a random agent (the solution it produces at iteration `i` is
abstracted as `agentPick i`), insert the scored result, prune on the `dom`
and `status` boundaries, and prune unconditionally at the end.  Status
printing performs no state change and is omitted. -/
def evolve_body {σ : Type _} (fitness : List (String × (σ → Int)))
    (agentPick : Nat → σ) (dom status : Nat) (i : Nat)
    (P : List (Eval × σ)) : List (Eval × σ) :=
  let P1 := add_solution fitness P (agentPick i)
  let P2 := if i % dom = 0 then remove_dominated P1 else P1
  let P3 := if i % status = 0 then remove_dominated P2 else P2
  remove_dominated P3

/-- Wall-clock elapsed time at the top of iteration `i`, from the per-
iteration durations `d`. -/
def clock (d : Nat → Nat) : Nat → Nat
  | 0 => 0
  | i + 1 => clock d i + d i

/-- `Evo.evolve`'s loop (evo copy.py lines 81–107) with explicit fuel: the
deadline is checked at the top of every iteration and the loop breaks when
the elapsed time reaches `time_limit`.  When every iteration takes at
least one time unit, `time_limit` fuel is enough for the loop to exit by
its own deadline check, so the fuel never alters the result. -/
def evolve_aux {σ : Type _} (fitness : List (String × (σ → Int)))
    (agentPick : Nat → σ) (dom status : Nat) (d : Nat → Nat)
    (time_limit : Nat) :
    Nat → Nat → List (Eval × σ) → List (Eval × σ)
  | 0, _, P => P
  | fuel + 1, i, P =>
    if time_limit ≤ clock d i then P
    else evolve_aux fitness agentPick dom status d time_limit fuel (i + 1)
      (evolve_body fitness agentPick dom status i P)

/-- `Evo.evolve` (evo copy.py lines 68–107). -/
def evolve {σ : Type _} (fitness : List (String × (σ → Int)))
    (agentPick : Nat → σ) (dom status : Nat) (d : Nat → Nat)
    (time_limit : Nat) (P : List (Eval × σ)) : List (Eval × σ) :=
  evolve_aux fitness agentPick dom status d time_limit time_limit 0 P

theorem nds_keys_subset (keys : List Eval) (q : Eval)
    (h : q ∈ nds_keys keys) :
    q ∈ keys ∧ ∀ p ∈ keys, dominates p q = false := by
  rw [nds_keys, foldl_reduce_nds keys keys, List.mem_filter] at h
  refine ⟨h.1, ?_⟩
  have := h.2
  simp only [Bool.not_eq_true', List.any_eq_false] at this
  intro p hp
  simpa using this p hp

theorem mem_keys_remove_dominated {σ : Type _} (pop : List (Eval × σ))
    (k : Eval) (h : k ∈ (remove_dominated pop).map Prod.fst) :
    k ∈ nds_keys (pop.map Prod.fst) := by
  obtain ⟨kv, hkv, rfl⟩ := List.mem_map.mp h
  obtain ⟨k', hk', hsome⟩ := List.mem_filterMap.mp hkv
  cases hl : dictLookup pop k' with
  | none =>
    rw [hl] at hsome
    simp at hsome
  | some v =>
    rw [hl] at hsome
    simp only [Option.map_some'] at hsome
    have : (k', v) = kv := Option.some.inj hsome
    rw [← this]
    exact hk'

theorem remove_dominated_no_dom {σ : Type _} (pop : List (Eval × σ)) :
    ∀ p ∈ (remove_dominated pop).map Prod.fst,
      ∀ q ∈ (remove_dominated pop).map Prod.fst,
        dominates p q = false := by
  intro p hp q hq
  have hq2 := nds_keys_subset _ q (mem_keys_remove_dominated pop q hq)
  have hp2 := nds_keys_subset _ p (mem_keys_remove_dominated pop p hp)
  exact hq2.2 p hp2.1

theorem evolve_body_no_dom {σ : Type _} (fitness : List (String × (σ → Int)))
    (agentPick : Nat → σ) (dom status i : Nat) (P : List (Eval × σ)) :
    ∀ p ∈ (evolve_body fitness agentPick dom status i P).map Prod.fst,
      ∀ q ∈ (evolve_body fitness agentPick dom status i P).map Prod.fst,
        dominates p q = false := by
  unfold evolve_body
  exact remove_dominated_no_dom _

theorem nds_keys_eq_self_of_no_dom (keys : List Eval)
    (h : ∀ p ∈ keys, ∀ q ∈ keys, dominates p q = false) :
    nds_keys keys = keys := by
  rw [nds_keys, foldl_reduce_nds keys keys]
  apply List.filter_eq_self.mpr
  intro q hq
  simp only [Bool.not_eq_true', List.any_eq_false]
  intro p hp
  simpa using h p hp q hq

theorem clock_ge (d : Nat → Nat) (hd : ∀ i, 1 ≤ d i) :
    ∀ i, i ≤ clock d i := by
  intro i
  induction i with
  | zero => exact le_refl 0
  | succ n ih =>
    rw [clock]
    have := hd n
    omega

theorem evolve_aux_eq_fold {σ : Type _} (fitness : List (String × (σ → Int)))
    (agentPick : Nat → σ) (dom status : Nat) (d : Nat → Nat) (limit : Nat) :
    ∀ (k fuel i : Nat) (P : List (Eval × σ)), k ≤ fuel →
      (∀ j, i ≤ j → j < i + k → clock d j < limit) →
      limit ≤ clock d (i + k) →
      evolve_aux fitness agentPick dom status d limit fuel i P =
        (List.range' i k).foldl
          (fun Q j => evolve_body fitness agentPick dom status j Q) P := by
  intro k
  induction k with
  | zero =>
    intro fuel i P _ _ hge
    cases fuel with
    | zero => rfl
    | succ f =>
      rw [evolve_aux, if_pos (by simpa using hge)]
      rfl
  | succ k ih =>
    intro fuel i P hk hlt hge
    cases fuel with
    | zero => omega
    | succ f =>
      rw [evolve_aux,
        if_neg (not_le.mpr (hlt i (le_refl i) (by omega)))]
      have hr : List.range' i (k + 1) = i :: List.range' (i + 1) k := rfl
      rw [hr, List.foldl_cons]
      refine ih f (i + 1) (evolve_body fitness agentPick dom status i P)
        (by omega) ?_ ?_
      · intro j hj1 hj2
        exact hlt j (by omega) (by omega)
      · have he : i + 1 + k = i + (k + 1) := by omega
        rw [he]
        exact hge

end Evo

section C9

open Evo

/-- C9: with a positive time limit, per-iteration durations of at least
one time unit and at most `Delta`, and a non-empty seeded population,
`evolve` runs exactly `N` full iterations where `N` is the first
top-of-loop instant at which the elapsed clock has reached the limit, it
returns at elapsed time < `time_limit + Delta` (the deadline is only
checked at the top of each iteration and agents are never interrupted
mid-step), and the returned population is its own non-dominated
frontier. -/
theorem evolve_terminates_pruned {σ : Type _}
    (fitness : List (String × (σ → Int))) (agentPick : Nat → σ)
    (dom status : Nat) (d : Nat → Nat) (time_limit Delta : Nat)
    (P : List (Eval × σ)) (hlim : 0 < time_limit)
    (hd1 : ∀ i, 1 ≤ d i) (hdD : ∀ i, d i ≤ Delta) (hseed : P ≠ []) :
    ∃ N, 0 < N ∧ N ≤ time_limit ∧
      (∀ j < N, clock d j < time_limit) ∧
      time_limit ≤ clock d N ∧ clock d N < time_limit + Delta ∧
      evolve fitness agentPick dom status d time_limit P =
        (List.range N).foldl
          (fun Q j => evolve_body fitness agentPick dom status j Q) P ∧
      (∀ p ∈ (evolve fitness agentPick dom status d time_limit P).map
          Prod.fst,
        ∀ q ∈ (evolve fitness agentPick dom status d time_limit P).map
          Prod.fst, dominates p q = false) ∧
      nds_keys ((evolve fitness agentPick dom status d time_limit P).map
          Prod.fst) =
        (evolve fitness agentPick dom status d time_limit P).map
          Prod.fst := by
  have hex : ∃ j, time_limit ≤ clock d j :=
    ⟨time_limit, clock_ge d hd1 time_limit⟩
  refine ⟨Nat.find hex, ?_, ?_, ?_, Nat.find_spec hex, ?_, ?_⟩
  case _ =>
    rcases Nat.eq_zero_or_pos (Nat.find hex) with h0 | hpos
    · exfalso
      have := Nat.find_spec hex
      rw [h0] at this
      have hc0 : clock d 0 = 0 := rfl
      omega
    · exact hpos
  case _ => exact Nat.find_min' hex (clock_ge d hd1 time_limit)
  case _ =>
    intro j hj
    exact lt_of_not_ge (Nat.find_min hex hj)
  case _ =>
    cases hN : Nat.find hex with
    | zero =>
      exfalso
      have := Nat.find_spec hex
      rw [hN] at this
      have hc0 : clock d 0 = 0 := rfl
      omega
    | succ m =>
      have hm : clock d m < time_limit := by
        have := Nat.find_min hex (m := m) (by omega)
        omega
      have hcs : clock d (m + 1) = clock d m + d m := rfl
      have := hdD m
      omega
  case _ =>
    have hfold := evolve_aux_eq_fold fitness agentPick dom status d
      time_limit (Nat.find hex) time_limit 0 P
      (Nat.find_min' hex (clock_ge d hd1 time_limit))
      (fun j _ hj => lt_of_not_ge (Nat.find_min hex (by omega)))
      (by
        have := Nat.find_spec hex
        simpa using this)
    have heq : evolve fitness agentPick dom status d time_limit P =
        (List.range (Nat.find hex)).foldl
          (fun Q j => evolve_body fitness agentPick dom status j Q) P := by
      rw [evolve, hfold, List.range_eq_range']
    refine ⟨heq, ?_⟩
    have hNpos : 0 < Nat.find hex := by
      rcases Nat.eq_zero_or_pos (Nat.find hex) with h0 | hpos
      · exfalso
        have := Nat.find_spec hex
        rw [h0] at this
        have hc0 : clock d 0 = 0 := rfl
        omega
      · exact hpos
    obtain ⟨m, hm⟩ := Nat.exists_eq_succ_of_ne_zero (Nat.pos_iff_ne_zero.mp hNpos)
    have hlast : evolve fitness agentPick dom status d time_limit P =
        evolve_body fitness agentPick dom status m
          ((List.range m).foldl
            (fun Q j => evolve_body fitness agentPick dom status j Q) P) := by
      rw [heq, hm, List.range_succ, List.foldl_append, List.foldl_cons,
        List.foldl_nil]
    rw [hlast]
    refine ⟨evolve_body_no_dom fitness agentPick dom status m _, ?_⟩
    exact nds_keys_eq_self_of_no_dom _
      (evolve_body_no_dom fitness agentPick dom status m _)

/-- Witness for C9: one objective, a trivial agent stream, unit ticks,
a 2-second limit and a singleton seeded population. -/
theorem evolve_terminates_pruned_witness :
    ∃ N, 0 < N ∧ N ≤ 2 ∧
      (∀ j < N, clock (fun _ => 1) j < 2) ∧
      2 ≤ clock (fun _ => 1) N ∧ clock (fun _ => 1) N < 2 + 1 ∧
      evolve [("overallocation", fun s : Nat => (s : Int))] (fun i => i)
          100 1000 (fun _ => 1) 2 [([("overallocation", (0 : Int))], 0)] =
        (List.range N).foldl
          (fun Q j => evolve_body
            [("overallocation", fun s : Nat => (s : Int))] (fun i => i)
            100 1000 j Q) [([("overallocation", (0 : Int))], 0)] ∧
      (∀ p ∈ (evolve [("overallocation", fun s : Nat => (s : Int))]
          (fun i => i) 100 1000 (fun _ => 1) 2
          [([("overallocation", (0 : Int))], 0)]).map Prod.fst,
        ∀ q ∈ (evolve [("overallocation", fun s : Nat => (s : Int))]
          (fun i => i) 100 1000 (fun _ => 1) 2
          [([("overallocation", (0 : Int))], 0)]).map Prod.fst,
          dominates p q = false) ∧
      nds_keys ((evolve [("overallocation", fun s : Nat => (s : Int))]
          (fun i => i) 100 1000 (fun _ => 1) 2
          [([("overallocation", (0 : Int))], 0)]).map Prod.fst) =
        (evolve [("overallocation", fun s : Nat => (s : Int))]
          (fun i => i) 100 1000 (fun _ => 1) 2
          [([("overallocation", (0 : Int))], 0)]).map Prod.fst :=
  evolve_terminates_pruned [("overallocation", fun s : Nat => (s : Int))]
    (fun i => i) 100 1000 (fun _ => 1) 2 1
    [([("overallocation", (0 : Int))], 0)] (by decide)
    (fun _ => le_refl 1) (fun _ => le_refl 1) (by simp)

end C9
